import Mathlib

/-!
Verification of the topology-aware layout engine of the Azure-DrawIO-MCP
repository (`topology_layout.py` and the layout geometry of
`drawio_generator.py`).  Python dictionaries are modelled as insertion-ordered
association lists (`Dict`), Python lists as Lean lists, and float arithmetic on
attachment fractions as exact rational arithmetic.  The breadth-first layer
assignment loop, which the source runs without any bound, is modelled with
explicit fuel: `none` means the loop has not finished within the given fuel.
-/

namespace AzureDrawio

/-- Python `dict` with string keys, modelled as an insertion-ordered
association list. -/
abbrev Dict (α : Type) := List (String × α)

/-- Lookup (`d.get(k)` returning `None` when absent). -/
def dGet? : Dict α → String → Option α
  | [], _ => none
  | (k', v) :: rest, k => if k' = k then some v else dGet? rest k

/-- Key membership (`k in d`). -/
def dMem (d : Dict α) (k : String) : Bool :=
  (dGet? d k).isSome

/-- Lookup with default (`d.get(k, v)`). -/
def dGetD (d : Dict α) (k : String) (v : α) : α :=
  (dGet? d k).getD v

/-- `defaultdict` update: apply `f` to the stored value when the key is
present, otherwise to the default `dflt`, appending a fresh entry (Python
dicts keep insertion order). -/
def dUpd (d : Dict α) (k : String) (dflt : α) (f : α → α) : Dict α :=
  match d with
  | [] => [(k, f dflt)]
  | (k', v) :: rest =>
      if k' = k then (k', f v) :: rest else (k', v) :: dUpd rest k dflt f

/-- Plain assignment `d[k] = v`. -/
def dSet (d : Dict α) (k : String) (v : α) : Dict α :=
  dUpd d k v (fun _ => v)

/-- `if k not in d: d[k] = v`. -/
def dEnsure (d : Dict α) (k : String) (v : α) : Dict α :=
  if dMem d k then d else d ++ [(k, v)]

theorem dGet?_dUpd_self (d : Dict α) (k : String) (dflt : α) (f : α → α) :
    dGet? (dUpd d k dflt f) k = some (f (dGetD d k dflt)) := by
  induction d with
  | nil => simp [dUpd, dGet?, dGetD]
  | cons p rest ih =>
      obtain ⟨k', v⟩ := p
      by_cases h : k' = k
      · simp [dUpd, dGet?, dGetD, h]
      · simpa [dUpd, dGet?, dGetD, h] using ih

theorem dGet?_dUpd_ne (d : Dict α) (k k' : String) (dflt : α) (f : α → α)
    (h : k' ≠ k) : dGet? (dUpd d k dflt f) k' = dGet? d k' := by
  induction d with
  | nil => simp [dUpd, dGet?, Ne.symm h]
  | cons p rest ih =>
      obtain ⟨k₀, v⟩ := p
      by_cases h0 : k₀ = k
      · subst h0
        simp [dUpd, dGet?, Ne.symm h]
      · by_cases h1 : k₀ = k'
        · simp [dUpd, dGet?, h0, h1, h]
        · simpa [dUpd, dGet?, h0, h1] using ih

theorem dMem_iff_dGet? (d : Dict α) (k : String) :
    dMem d k = true ↔ ∃ v, dGet? d k = some v := by
  unfold dMem
  cases h : dGet? d k <;> simp [Option.isSome, h]

theorem dMem_dUpd (d : Dict α) (k k' : String) (dflt : α) (f : α → α) :
    dMem (dUpd d k dflt f) k' = (k' = k || dMem d k') := by
  by_cases h : k' = k
  · subst h
    simp [dMem, dGet?_dUpd_self]
  · simp [dMem, dGet?_dUpd_ne d k k' dflt f h, h]

theorem dGet?_append_right (d d' : Dict α) (k : String) (h : dMem d k = false) :
    dGet? (d ++ d') k = dGet? d' k := by
  induction d with
  | nil => simp
  | cons p rest ih =>
      obtain ⟨k', v⟩ := p
      by_cases h1 : k' = k
      · simp [dMem, dGet?, h1] at h
      · simp only [dMem, dGet?, if_neg h1] at h
        simpa [dGet?, h1] using ih h

theorem dGet?_append_left (d d' : Dict α) (k : String) (h : dMem d k = true) :
    dGet? (d ++ d') k = dGet? d k := by
  induction d with
  | nil => simp [dMem, dGet?] at h
  | cons p rest ih =>
      obtain ⟨k', v⟩ := p
      by_cases h1 : k' = k
      · simp [dGet?, h1]
      · simp only [dMem, dGet?, if_neg h1] at h
        simpa [dGet?, h1] using ih h

theorem dGet?_dEnsure_self (d : Dict α) (k : String) (v : α) :
    dGet? (dEnsure d k v) k = some (dGetD d k v) := by
  unfold dEnsure
  cases h : dMem d k
  · rw [if_neg (by simp), dGet?_append_right _ _ _ h]
    have hnone : dGet? d k = none := by
      cases hg : dGet? d k with
      | none => rfl
      | some w =>
          rw [(dMem_iff_dGet? d k).mpr ⟨w, hg⟩] at h
          cases h
    simp [dGet?, dGetD, hnone]
  · rw [if_pos rfl]
    rcases (dMem_iff_dGet? d k).mp h with ⟨w, hw⟩
    simp [dGetD, hw]

theorem dGet?_dEnsure_ne (d : Dict α) (k k' : String) (v : α) (h : k' ≠ k) :
    dGet? (dEnsure d k v) k' = dGet? d k' := by
  unfold dEnsure
  cases hm : dMem d k
  · rw [if_neg (by simp)]
    cases hg : dMem d k'
    · rw [dGet?_append_right _ _ _ hg]
      have hnone : dGet? d k' = none := by
        cases hg' : dGet? d k' with
        | none => rfl
        | some w =>
            rw [(dMem_iff_dGet? d k').mpr ⟨w, hg'⟩] at hg
            cases hg
      simp [dGet?, Ne.symm h, hnone]
    · rw [dGet?_append_left _ _ _ hg]
  · simp

theorem dMem_dEnsure (d : Dict α) (k k' : String) (v : α) :
    dMem (dEnsure d k v) k' = (k' = k || dMem d k') := by
  by_cases h : k' = k
  · subst h
    simp [dMem, dGet?_dEnsure_self]
  · simp [dMem, dGet?_dEnsure_ne d k k' v h, h]

/-! ## Data model (`models.py`) -/

/-- `Connection` record: `source`, `target` resource ids with an optional
label (the cosmetic `style` field plays no role in layout). -/
structure Connection where
  source : String
  target : String
  label : Option String := none
deriving DecidableEq

/-- `AzureResource` record: unique id, type and display name, optional
explicit position, optional group membership. -/
structure AzureResource where
  id : String
  resource_type : String := ""
  name : String := ""
  x : Option Int := none
  y : Option Int := none
  group : Option String := none
deriving DecidableEq

/-- `ResourceGroup` record. -/
structure ResourceGroup where
  id : String
  name : String := ""
  color : Option String := none
deriving DecidableEq

/-! ## Graph builder (`build_adjacency_graph`) -/

/-- The four mappings returned by `build_adjacency_graph`. -/
structure AdjGraphs where
  outgoing : Dict (List String)
  incoming : Dict (List String)
  out_degree : Dict Nat
  in_degree : Dict Nat
deriving DecidableEq

/-- Body of the `for conn in connections` loop of `build_adjacency_graph`. -/
def buildStep (g : AdjGraphs) (c : Connection) : AdjGraphs :=
  let outgoing := dUpd g.outgoing c.source [] (fun l => l ++ [c.target])
  let incoming := dUpd g.incoming c.target [] (fun l => l ++ [c.source])
  let out_degree := dUpd g.out_degree c.source 0 (fun n => n + 1)
  let in_degree := dUpd g.in_degree c.target 0 (fun n => n + 1)
  let out_degree := dEnsure out_degree c.target 0
  let in_degree := dEnsure in_degree c.source 0
  { outgoing := outgoing, incoming := incoming,
    out_degree := out_degree, in_degree := in_degree }

/-- `build_adjacency_graph(connections)` from `topology_layout.py`. -/
def build_adjacency_graph (connections : List Connection) : AdjGraphs :=
  connections.foldl buildStep ⟨[], [], [], []⟩

/-- Append a batch of values onto an optional adjacency entry: an existing
entry is extended, a missing one is created exactly when the batch is
non-empty. -/
def optApp (o : Option (List String)) (xs : List String) : Option (List String) :=
  match o with
  | some l => some (l ++ xs)
  | none => if xs = [] then none else some xs

theorem optApp_append (o : Option (List String)) (xs ys : List String) :
    optApp (optApp o xs) ys = optApp o (xs ++ ys) := by
  cases o with
  | some l => simp [optApp]
  | none =>
      by_cases hx : xs = []
      · subst hx; simp [optApp]
      · by_cases hy : ys = [] <;> simp [optApp, hx, hy]

theorem build_outgoing_get (cs : List Connection) (g : AdjGraphs) (k : String) :
    dGet? (cs.foldl buildStep g).outgoing k =
      optApp (dGet? g.outgoing k)
        ((cs.filter (fun c => c.source = k)).map (fun c => c.target)) := by
  induction cs generalizing g with
  | nil => cases h : dGet? g.outgoing k <;> simp [optApp, h]
  | cons c rest ih =>
      rw [List.foldl_cons, ih]
      by_cases h : c.source = k
      · have hout : dGet? (buildStep g c).outgoing k =
            some (dGetD g.outgoing k [] ++ [c.target]) := by
          simp only [buildStep]
          rw [h, dGet?_dUpd_self]
        rw [hout]
        have : optApp (dGet? g.outgoing k) [c.target] =
            some (dGetD g.outgoing k [] ++ [c.target]) := by
          cases hg : dGet? g.outgoing k <;> simp [optApp, dGetD, hg]
        rw [← this, optApp_append]
        simp [h]
      · have hout : dGet? (buildStep g c).outgoing k = dGet? g.outgoing k := by
          simp only [buildStep]
          exact dGet?_dUpd_ne _ _ _ _ _ (fun hh => h hh.symm)
        rw [hout]
        simp [h]

theorem build_incoming_get (cs : List Connection) (g : AdjGraphs) (k : String) :
    dGet? (cs.foldl buildStep g).incoming k =
      optApp (dGet? g.incoming k)
        ((cs.filter (fun c => c.target = k)).map (fun c => c.source)) := by
  induction cs generalizing g with
  | nil => cases h : dGet? g.incoming k <;> simp [optApp, h]
  | cons c rest ih =>
      rw [List.foldl_cons, ih]
      by_cases h : c.target = k
      · have hinc : dGet? (buildStep g c).incoming k =
            some (dGetD g.incoming k [] ++ [c.source]) := by
          simp only [buildStep]
          rw [h, dGet?_dUpd_self]
        rw [hinc]
        have : optApp (dGet? g.incoming k) [c.source] =
            some (dGetD g.incoming k [] ++ [c.source]) := by
          cases hg : dGet? g.incoming k <;> simp [optApp, dGetD, hg]
        rw [← this, optApp_append]
        simp [h]
      · have hinc : dGet? (buildStep g c).incoming k = dGet? g.incoming k := by
          simp only [buildStep]
          exact dGet?_dUpd_ne _ _ _ _ _ (fun hh => h hh.symm)
        rw [hinc]
        simp [h]

/-- The `outgoing.get(k, [])` list is exactly the targets of the connections
whose source is `k`, in input order. -/
theorem build_outgoing_getD (cs : List Connection) (k : String) :
    dGetD (build_adjacency_graph cs).outgoing k [] =
      (cs.filter (fun c => c.source = k)).map (fun c => c.target) := by
  unfold build_adjacency_graph dGetD
  rw [build_outgoing_get cs ⟨[], [], [], []⟩ k]
  by_cases h : (cs.filter (fun c => c.source = k)).map (fun c => c.target) = []
  · simp [dGet?, optApp, h]
  · simp [dGet?, optApp, h]

/-- The `incoming.get(k, [])` list is exactly the sources of the connections
whose target is `k`, in input order. -/
theorem build_incoming_getD (cs : List Connection) (k : String) :
    dGetD (build_adjacency_graph cs).incoming k [] =
      (cs.filter (fun c => c.target = k)).map (fun c => c.source) := by
  unfold build_adjacency_graph dGetD
  rw [build_incoming_get cs ⟨[], [], [], []⟩ k]
  by_cases h : (cs.filter (fun c => c.target = k)).map (fun c => c.source) = []
  · simp [dGet?, optApp, h]
  · simp [dGet?, optApp, h]

theorem build_outgoing_mem (cs : List Connection) (g : AdjGraphs) (k : String) :
    dMem (cs.foldl buildStep g).outgoing k =
      (dMem g.outgoing k || cs.any (fun c => c.source = k)) := by
  induction cs generalizing g with
  | nil => simp
  | cons c rest ih =>
      rw [List.foldl_cons, ih]
      have hmem : dMem (buildStep g c).outgoing k = ((k = c.source) || dMem g.outgoing k) := by
        simp only [buildStep]
        exact dMem_dUpd _ _ _ _ _
      rw [hmem]
      simp only [List.any_cons, eq_comm]
      cases decide (k = c.source) <;> cases dMem g.outgoing k <;> simp

theorem build_incoming_mem (cs : List Connection) (g : AdjGraphs) (k : String) :
    dMem (cs.foldl buildStep g).incoming k =
      (dMem g.incoming k || cs.any (fun c => c.target = k)) := by
  induction cs generalizing g with
  | nil => simp
  | cons c rest ih =>
      rw [List.foldl_cons, ih]
      have hmem : dMem (buildStep g c).incoming k = ((k = c.target) || dMem g.incoming k) := by
        simp only [buildStep]
        exact dMem_dUpd _ _ _ _ _
      rw [hmem]
      simp only [List.any_cons, eq_comm]
      cases decide (k = c.target) <;> cases dMem g.incoming k <;> simp

theorem build_out_degree_mem (cs : List Connection) (g : AdjGraphs) (k : String) :
    dMem (cs.foldl buildStep g).out_degree k =
      (dMem g.out_degree k || cs.any (fun c => c.source = k || c.target = k)) := by
  induction cs generalizing g with
  | nil => simp
  | cons c rest ih =>
      rw [List.foldl_cons, ih]
      have hmem : dMem (buildStep g c).out_degree k =
          ((k = c.target) || ((k = c.source) || dMem g.out_degree k)) := by
        simp only [buildStep]
        rw [dMem_dEnsure, dMem_dUpd]
      rw [hmem]
      simp only [List.any_cons, eq_comm]
      cases decide (k = c.source) <;> cases decide (k = c.target) <;>
        cases dMem g.out_degree k <;> simp

theorem build_in_degree_mem (cs : List Connection) (g : AdjGraphs) (k : String) :
    dMem (cs.foldl buildStep g).in_degree k =
      (dMem g.in_degree k || cs.any (fun c => c.source = k || c.target = k)) := by
  induction cs generalizing g with
  | nil => simp
  | cons c rest ih =>
      rw [List.foldl_cons, ih]
      have hmem : dMem (buildStep g c).in_degree k =
          ((k = c.source) || ((k = c.target) || dMem g.in_degree k)) := by
        simp only [buildStep]
        rw [dMem_dEnsure, dMem_dUpd]
      rw [hmem]
      simp only [List.any_cons, eq_comm]
      cases decide (k = c.source) <;> cases decide (k = c.target) <;>
        cases dMem g.in_degree k <;> simp

/-- C2 (counterexample): on the single connection `a → b`, the id `b`
appears as a target but the `outgoing` mapping returned by
`build_adjacency_graph` has no entry for it, contrary to the claim that all
four mappings carry an entry for every endpoint id. -/
theorem C2_counterexample :
    dMem (build_adjacency_graph [{ source := "a", target := "b" }]).outgoing "b" = false := by
  decide

/-- C2 (amended): for every connection list, the two degree mappings of
`build_adjacency_graph` contain an entry exactly for the ids appearing as a
source or a target of some connection, while `outgoing` contains an entry
exactly for the ids appearing as a source and `incoming` exactly for the ids
appearing as a target. -/
theorem C2_amended_keySets (cs : List Connection) (k : String) :
    dMem (build_adjacency_graph cs).out_degree k =
        cs.any (fun c => c.source = k || c.target = k) ∧
      dMem (build_adjacency_graph cs).in_degree k =
        cs.any (fun c => c.source = k || c.target = k) ∧
      dMem (build_adjacency_graph cs).outgoing k = cs.any (fun c => c.source = k) ∧
      dMem (build_adjacency_graph cs).incoming k = cs.any (fun c => c.target = k) := by
  unfold build_adjacency_graph
  refine ⟨?_, ?_, ?_, ?_⟩
  · rw [build_out_degree_mem]; simp [dMem, dGet?]
  · rw [build_in_degree_mem]; simp [dMem, dGet?]
  · rw [build_outgoing_mem]; simp [dMem, dGet?]
  · rw [build_incoming_mem]; simp [dMem, dGet?]

/-! ## Connectivity score and hub detection -/

/-- `calculate_connectivity_score` from `topology_layout.py`. -/
def calculate_connectivity_score (resource_id : String)
    (outgoing incoming : Dict (List String)) : Nat :=
  (dGetD outgoing resource_id []).length + (dGetD incoming resource_id []).length

/-- Hub detection threshold constant. -/
def HUB_CONNECTIVITY_THRESHOLD : Nat := 3

/-- `detect_hubs` from `topology_layout.py` (the Python default for
`threshold` is `HUB_CONNECTIVITY_THRESHOLD`). -/
def detect_hubs (resources : List AzureResource) (connections : List Connection)
    (threshold : Nat) : Dict Nat :=
  let g := build_adjacency_graph connections
  resources.foldl
    (fun hubs r =>
      let score := calculate_connectivity_score r.id g.outgoing g.incoming
      if threshold ≤ score then dSet hubs r.id score else hubs)
    []

/-- The in-plus-out degree of an id, counted directly on the connection
list. -/
def totalDegree (connections : List Connection) (k : String) : Nat :=
  (connections.filter (fun c => c.source = k)).length +
    (connections.filter (fun c => c.target = k)).length

theorem connectivity_score_eq_totalDegree (connections : List Connection) (k : String) :
    calculate_connectivity_score k (build_adjacency_graph connections).outgoing
      (build_adjacency_graph connections).incoming = totalDegree connections k := by
  unfold calculate_connectivity_score totalDegree
  rw [build_outgoing_getD, build_incoming_getD]
  simp

theorem dGet?_dSet_self (d : Dict α) (k : String) (v : α) :
    dGet? (dSet d k v) k = some v := by
  unfold dSet
  rw [dGet?_dUpd_self]

theorem dGet?_dSet_ne (d : Dict α) (k k' : String) (v : α) (h : k' ≠ k) :
    dGet? (dSet d k v) k' = dGet? d k' := by
  unfold dSet
  exact dGet?_dUpd_ne _ _ _ _ _ h

theorem detect_hubs_aux (t : Nat) (g : AdjGraphs) (rs : List AzureResource)
    (acc : Dict Nat) (k : String) :
    dGet? (rs.foldl
      (fun hubs r =>
        let score := calculate_connectivity_score r.id g.outgoing g.incoming
        if t ≤ score then dSet hubs r.id score else hubs) acc) k =
      if rs.any (fun r => r.id = k &&
          t ≤ calculate_connectivity_score r.id g.outgoing g.incoming) then
        some (calculate_connectivity_score k g.outgoing g.incoming)
      else dGet? acc k := by
  induction rs generalizing acc with
  | nil => simp
  | cons r rest ih =>
      rw [List.foldl_cons, ih]
      by_cases hk : r.id = k
      · subst hk
        by_cases ht : t ≤ calculate_connectivity_score r.id g.outgoing g.incoming
        · by_cases hrest : rest.any (fun r' => r'.id = r.id &&
              t ≤ calculate_connectivity_score r'.id g.outgoing g.incoming)
          · simp [List.any_cons, ht, hrest]
          · simp [List.any_cons, ht, hrest, dGet?_dSet_self]
        · simp [List.any_cons, ht]
      · by_cases ht : t ≤ calculate_connectivity_score r.id g.outgoing g.incoming
        · simp [List.any_cons, hk, ht, dGet?_dSet_ne _ _ _ _ (fun hh => hk hh.symm)]
        · simp [List.any_cons, hk, ht]

/-- C7: the key set of `detect_hubs` is exactly the ids of the resources
whose total (in + out) degree meets the threshold, each mapped to that
degree, and the hub set shrinks (or stays equal) as the threshold rises. -/
theorem C7_detect_hubs (resources : List AzureResource) (connections : List Connection)
    (t t1 t2 : Nat) (k : String) (h12 : t1 ≤ t2) :
    (dMem (detect_hubs resources connections t) k = true ↔
        (∃ r ∈ resources, r.id = k) ∧ t ≤ totalDegree connections k) ∧
      (∀ v, dGet? (detect_hubs resources connections t) k = some v →
        v = totalDegree connections k) ∧
      (dMem (detect_hubs resources connections t2) k = true →
        dMem (detect_hubs resources connections t1) k = true) := by
  have hchar : ∀ t' : Nat, dGet? (detect_hubs resources connections t') k =
      if resources.any (fun r => r.id = k &&
          t' ≤ calculate_connectivity_score r.id
            (build_adjacency_graph connections).outgoing
            (build_adjacency_graph connections).incoming) then
        some (totalDegree connections k)
      else none := by
    intro t'
    unfold detect_hubs
    rw [detect_hubs_aux, connectivity_score_eq_totalDegree]
    rfl
  have hany : ∀ t' : Nat, (resources.any (fun r => r.id = k &&
      t' ≤ calculate_connectivity_score r.id
        (build_adjacency_graph connections).outgoing
        (build_adjacency_graph connections).incoming) = true) ↔
      ((∃ r ∈ resources, r.id = k) ∧ t' ≤ totalDegree connections k) := by
    intro t'
    rw [List.any_eq_true]
    constructor
    · rintro ⟨r, hr, hb⟩
      rw [Bool.and_eq_true, decide_eq_true_iff, decide_eq_true_iff] at hb
      refine ⟨⟨r, hr, hb.1⟩, ?_⟩
      rw [← hb.1] at *
      rw [← connectivity_score_eq_totalDegree connections r.id]
      exact hb.2
    · rintro ⟨⟨r, hr, hid⟩, ht⟩
      refine ⟨r, hr, ?_⟩
      rw [Bool.and_eq_true, decide_eq_true_iff, decide_eq_true_iff]
      refine ⟨hid, ?_⟩
      rw [hid, connectivity_score_eq_totalDegree]
      exact ht
  refine ⟨?_, ?_, ?_⟩
  · rw [dMem_iff_dGet?, hchar t]
    by_cases hb : resources.any (fun r => r.id = k &&
        t ≤ calculate_connectivity_score r.id
          (build_adjacency_graph connections).outgoing
          (build_adjacency_graph connections).incoming)
    · simp only [hb, if_true]
      rw [← hany t]
      simp [hb]
    · simp only [hb]
      rw [← hany t]
      simp [hb]
  · intro v hv
    rw [hchar t] at hv
    by_cases hb : resources.any (fun r => r.id = k &&
        t ≤ calculate_connectivity_score r.id
          (build_adjacency_graph connections).outgoing
          (build_adjacency_graph connections).incoming)
    · simp only [hb, if_true] at hv
      exact (Option.some.injEq _ _ ▸ hv.symm)
    · simp [hb] at hv
  · intro h2
    rw [dMem_iff_dGet?, hchar t2] at h2
    rw [dMem_iff_dGet?, hchar t1]
    rcases h2 with ⟨v, hv⟩
    by_cases hb2 : resources.any (fun r => r.id = k &&
        t2 ≤ calculate_connectivity_score r.id
          (build_adjacency_graph connections).outgoing
          (build_adjacency_graph connections).incoming)
    · have h2' := (hany t2).mp hb2
      have h1' : (∃ r ∈ resources, r.id = k) ∧ t1 ≤ totalDegree connections k :=
        ⟨h2'.1, le_trans h12 h2'.2⟩
      rw [if_pos ((hany t1).mpr h1')]
      exact ⟨_, rfl⟩
    · simp [hb2] at hv

/-- Concrete hub-and-spoke instance used to witness C7. -/
def hubResources : List AzureResource := [{ id := "hub" }, { id := "s1" }]

/-- Concrete connections of the hub-and-spoke witness instance. -/
def hubConnections : List Connection :=
  [{ source := "s1", target := "hub" }, { source := "s2", target := "hub" },
   { source := "hub", target := "s3" }]

/-- C7 witness: a concrete instantiation with thresholds 1 ≤ 3. -/
theorem C7_detect_hubs_witness :
    (1 : Nat) ≤ 3 ∧
      ((dMem (detect_hubs hubResources hubConnections 3) "hub" = true ↔
          (∃ r ∈ hubResources, r.id = "hub") ∧ 3 ≤ totalDegree hubConnections "hub") ∧
        (∀ v, dGet? (detect_hubs hubResources hubConnections 3) "hub" = some v →
          v = totalDegree hubConnections "hub") ∧
        (dMem (detect_hubs hubResources hubConnections 3) "hub" = true →
          dMem (detect_hubs hubResources hubConnections 1) "hub" = true)) :=
  ⟨by decide, C7_detect_hubs hubResources hubConnections 3 1 3 "hub" (by decide)⟩

/-! ## Edge endpoint spreading (`_get_spread_position`) -/

/-- `_get_spread_position(index, total)` from `drawio_generator.py`, float
arithmetic modelled exactly over `ℚ`. -/
def _get_spread_position (index : Nat) (total : Nat) : ℚ :=
  if total = 1 then 0.5
  else
    let min_pos : ℚ := 0.2
    let max_pos : ℚ := 0.8
    let step : ℚ := if 1 < total then (max_pos - min_pos) / ((total : ℚ) - 1) else 0
    min_pos + (index : ℚ) * step

theorem spread_step_pos (total : Nat) (h : 2 ≤ total) :
    (0 : ℚ) < ((0.8 : ℚ) - 0.2) / ((total : ℚ) - 1) := by
  apply div_pos
  · norm_num
  · have : (2 : ℚ) ≤ (total : ℚ) := by exact_mod_cast h
    linarith

/-- C3: within a spread group of `total` co-incident edges, the fractions
assigned to indices `0 ≤ i < total` are strictly increasing in the index
(hence pairwise distinct), evenly spaced with gap `0.6/(total-1)`, all lie in
`[0.2, 0.8]`, and a group of size one gets exactly `0.5`. -/
theorem C3_spread_position (total i j : Nat) (hi : i < total) (hj : j < total) :
    (i < j → _get_spread_position i total < _get_spread_position j total) ∧
      0.2 ≤ _get_spread_position i total ∧
      _get_spread_position i total ≤ 0.8 ∧
      (2 ≤ total →
        _get_spread_position (i + 1) total - _get_spread_position i total =
          ((0.8 : ℚ) - 0.2) / ((total : ℚ) - 1)) ∧
      (total = 1 → _get_spread_position i total = 0.5) := by
  rcases Nat.lt_or_ge total 2 with h2 | h2
  · have h1 : total = 1 := by omega
    subst h1
    have hi0 : i = 0 := by omega
    have hj0 : j = 0 := by omega
    subst hi0; subst hj0
    refine ⟨fun h => absurd h (by omega), by norm_num [_get_spread_position],
      by norm_num [_get_spread_position], fun h => absurd h (by omega),
      fun _ => by simp [_get_spread_position]⟩
  · have hne1 : total ≠ 1 := by omega
    have hlt : 1 < total := by omega
    have hstep : ∀ m : Nat, _get_spread_position m total =
        0.2 + (m : ℚ) * (((0.8 : ℚ) - 0.2) / ((total : ℚ) - 1)) := by
      intro m
      simp [_get_spread_position, hne1, hlt]
    have hpos := spread_step_pos total h2
    refine ⟨?_, ?_, ?_, ?_, fun h => absurd h hne1⟩
    · intro hij
      rw [hstep i, hstep j]
      have : (i : ℚ) < (j : ℚ) := by exact_mod_cast hij
      nlinarith
    · rw [hstep i]
      have : (0 : ℚ) ≤ (i : ℚ) := by positivity
      nlinarith
    · rw [hstep i]
      have hle : (i : ℚ) ≤ (total : ℚ) - 1 := by
        have : (i : ℚ) + 1 ≤ (total : ℚ) := by exact_mod_cast hi
        linarith
      have htot : (0 : ℚ) < (total : ℚ) - 1 := by
        have : (2 : ℚ) ≤ (total : ℚ) := by exact_mod_cast h2
        linarith
      have hmul : (i : ℚ) * (((0.8 : ℚ) - 0.2) / ((total : ℚ) - 1)) ≤
          ((total : ℚ) - 1) * (((0.8 : ℚ) - 0.2) / ((total : ℚ) - 1)) := by
        apply mul_le_mul_of_nonneg_right hle (le_of_lt hpos)
      have hcancel : ((total : ℚ) - 1) * (((0.8 : ℚ) - 0.2) / ((total : ℚ) - 1)) =
          (0.8 : ℚ) - 0.2 := by
        field_simp
      rw [hcancel] at hmul
      linarith
    · intro _
      rw [hstep (i + 1), hstep i]
      push_cast
      ring

/-- C3 witness: concrete instantiation with a group of three edges. -/
theorem C3_spread_position_witness :
    (0 : Nat) < 3 ∧ (2 : Nat) < 3 ∧
      ((0 : Nat) < 2 → _get_spread_position 0 3 < _get_spread_position 2 3) ∧
      0.2 ≤ _get_spread_position 0 3 ∧
      _get_spread_position 0 3 ≤ 0.8 ∧
      (2 ≤ (3 : Nat) →
        _get_spread_position (0 + 1) 3 - _get_spread_position 0 3 =
          ((0.8 : ℚ) - 0.2) / ((3 : ℚ) - 1)) ∧
      ((3 : Nat) = 1 → _get_spread_position 0 3 = 0.5) :=
  ⟨by decide, by decide, (C3_spread_position 3 0 2 (by decide) (by decide)).1,
    (C3_spread_position 3 0 2 (by decide) (by decide)).2.1,
    (C3_spread_position 3 0 2 (by decide) (by decide)).2.2.1,
    (C3_spread_position 3 0 2 (by decide) (by decide)).2.2.2.1,
    (C3_spread_position 3 0 2 (by decide) (by decide)).2.2.2.2⟩

/-! ## Within-layer ordering (`order_within_layer`) -/

/-- Barycenter key of one resource against the previous layer order
(`barycenter` inside `order_within_layer`): mean index, in the previous
layer's order, of the incoming neighbours found there, falling back to the
negated connectivity score. -/
def barycenter (outgoing incoming : Dict (List String)) (prev_layer_order : List String)
    (resource : AzureResource) : ℚ :=
  let connected_positions := (dGetD incoming resource.id []).filterMap
    (fun source => if source ∈ prev_layer_order then
        some (List.indexOf source prev_layer_order) else none)
  if connected_positions ≠ [] then
    ((connected_positions.map (fun n => (n : ℚ))).sum) / (connected_positions.length : ℚ)
  else
    (calculate_connectivity_score resource.id outgoing incoming : ℚ) * (-1)

/-- One step of the first-layer interleave loop of `order_within_layer`:
index 0 goes to `result`, odd indices to `left`, the rest to `right`. -/
def interStep (g : β → α) (acc : List α × List α × List α) (p : Nat × β) :
    List α × List α × List α :=
  if p.1 = 0 then (acc.1 ++ [g p.2], acc.2.1, acc.2.2)
  else if p.1 % 2 = 1 then (acc.1, acc.2.1 ++ [g p.2], acc.2.2)
  else (acc.1, acc.2.1, acc.2.2 ++ [g p.2])

/-- First-layer branch of `order_within_layer`: sort by connectivity score
descending (stable), then interleave the scored list around the highest
element, with odd positions collected left and even positions right. -/
def firstLayerOrder (layer_resources : List AzureResource)
    (outgoing incoming : Dict (List String)) : List AzureResource :=
  let scored := layer_resources.map
    (fun r => (r, calculate_connectivity_score r.id outgoing incoming))
  let sorted := scored.mergeSort (fun a b => decide (b.2 ≤ a.2))
  let t := sorted.enum.foldl (interStep (fun p => p.1)) ([], [], [])
  t.2.1.reverse ++ t.1 ++ t.2.2

/-- `order_within_layer` from `topology_layout.py` (`prev_layer_order=None`
by default in the source; the Python truthiness test
`prev_layer_order and len(prev_layer_order) > 0` holds exactly when the
argument is present and non-empty). -/
def order_within_layer (layer_resources : List AzureResource)
    (outgoing incoming : Dict (List String))
    (prev_layer_order : Option (List String)) : List AzureResource :=
  if layer_resources = [] then []
  else if prev_layer_order.getD [] ≠ [] then
    layer_resources.mergeSort (fun a b =>
      decide (barycenter outgoing incoming (prev_layer_order.getD []) a ≤
        barycenter outgoing incoming (prev_layer_order.getD []) b))
  else firstLayerOrder layer_resources outgoing incoming

/-- Alternating split: with flag `true` the head goes to the first (left)
list, with flag `false` to the second (right) list, flipping at each
element. -/
def parityCollect : Bool → List α → List α × List α
  | _, [] => ([], [])
  | b, x :: rest =>
      let p := parityCollect (!b) rest
      if b then (x :: p.1, p.2) else (p.1, x :: p.2)

theorem parityCollect_perm (b : Bool) (l : List α) :
    ((parityCollect b l).1 ++ (parityCollect b l).2).Perm l := by
  induction l generalizing b with
  | nil => simp [parityCollect]
  | cons x rest ih =>
      cases b with
      | true =>
          show ((x :: (parityCollect false rest).1) ++ (parityCollect false rest).2).Perm
            (x :: rest)
          exact (ih false).cons x
      | false =>
          show ((parityCollect true rest).1 ++ (x :: (parityCollect true rest).2)).Perm
            (x :: rest)
          exact List.perm_middle.trans ((ih true).cons x)

theorem interFold_enumFrom (g : β → α) (l : List β) (n : Nat) (hn : 1 ≤ n)
    (res left right : List α) :
    (List.enumFrom n l).foldl (interStep g) (res, left, right) =
      (res, left ++ (parityCollect (decide (n % 2 = 1)) (l.map g)).1,
        right ++ (parityCollect (decide (n % 2 = 1)) (l.map g)).2) := by
  induction l generalizing n res left right with
  | nil => simp [parityCollect]
  | cons x rest ih =>
      rw [List.enumFrom_cons, List.foldl_cons]
      have hn0 : n ≠ 0 := by omega
      by_cases hpar : n % 2 = 1
      · have hn1 : (n + 1) % 2 = 0 := by omega
        have hstep : interStep g (res, left, right) (n, x) = (res, left ++ [g x], right) := by
          simp [interStep, hpar, hn0]
        rw [hstep, ih (n + 1) (by omega)]
        simp [parityCollect, hpar, hn1]
      · have hn1 : (n + 1) % 2 = 1 := by omega
        have hstep : interStep g (res, left, right) (n, x) = (res, left, right ++ [g x]) := by
          simp [interStep, hpar, hn0]
        rw [hstep, ih (n + 1) (by omega)]
        simp [parityCollect, hpar, hn1]

theorem firstLayerOrder_perm (layer_resources : List AzureResource)
    (outgoing incoming : Dict (List String)) :
    (firstLayerOrder layer_resources outgoing incoming).Perm layer_resources := by
  simp only [firstLayerOrder]
  have hmap : ((layer_resources.map
      (fun r => (r, calculate_connectivity_score r.id outgoing incoming))).map
        (fun p => p.1)) = layer_resources := by
    induction layer_resources with
    | nil => rfl
    | cons a t ih => simp only [List.map_cons, ih]
  have hperm : ((layer_resources.map
      (fun r => (r, calculate_connectivity_score r.id outgoing incoming))).mergeSort
        (fun a b => decide (b.2 ≤ a.2))).Perm
      (layer_resources.map
        (fun r => (r, calculate_connectivity_score r.id outgoing incoming))) :=
    List.mergeSort_perm _ _
  cases hs : (layer_resources.map
      (fun r => (r, calculate_connectivity_score r.id outgoing incoming))).mergeSort
        (fun a b => decide (b.2 ≤ a.2)) with
  | nil =>
      rw [hs] at hperm
      have hz : layer_resources.map
          (fun r => (r, calculate_connectivity_score r.id outgoing incoming)) = [] :=
        (List.Perm.nil_eq hperm).symm
      have hlz : layer_resources = [] := by
        cases layer_resources
        · rfl
        · simp at hz
      subst hlz
      simp [List.enum, interStep]
  | cons p rest =>
      rw [List.enum_cons, List.foldl_cons]
      have hstep0 : interStep (fun p => p.1) (([], [], []) :
          List AzureResource × List AzureResource × List AzureResource) (0, p) =
          ([p.1], [], []) := by
        simp [interStep]
      rw [hstep0, interFold_enumFrom _ _ 1 (le_refl 1)]
      have hone : decide ((1 : Nat) % 2 = 1) = true := by decide
      rw [hone]
      simp only [List.nil_append]
      have h1 : ((parityCollect true (rest.map (fun p => p.1))).1.reverse ++
          [p.1] ++ (parityCollect true (rest.map (fun p => p.1))).2).Perm
          (p.1 :: ((parityCollect true (rest.map (fun p => p.1))).1.reverse ++
            (parityCollect true (rest.map (fun p => p.1))).2)) := by
        rw [List.append_assoc]
        exact List.perm_middle
      have h2 : ((parityCollect true (rest.map (fun p => p.1))).1.reverse ++
          (parityCollect true (rest.map (fun p => p.1))).2).Perm
          (rest.map (fun p => p.1)) :=
        (List.Perm.append ((parityCollect true
          (rest.map (fun p => p.1))).1.reverse_perm) (List.Perm.refl _)).trans
          (parityCollect_perm true (rest.map (fun p => p.1)))
      have h3 : (p.1 :: rest.map (fun p => p.1)) = ((p :: rest).map (fun p => p.1)) := by
        simp
      refine (h1.trans (h2.cons p.1)).trans ?_
      rw [h3, ← hs]
      have hh := hperm.map (fun p => p.1)
      rw [hmap] at hh
      exact hh

/-- C4: for every layer resource list, adjacency input, and previous-layer
order (present or absent), `order_within_layer` returns a permutation of its
input list. -/
theorem C4_order_within_layer_perm (layer_resources : List AzureResource)
    (outgoing incoming : Dict (List String))
    (prev_layer_order : Option (List String)) :
    (order_within_layer layer_resources outgoing incoming prev_layer_order).Perm
      layer_resources := by
  unfold order_within_layer
  by_cases he : layer_resources = []
  · simp [he]
  · rw [if_neg he]
    by_cases hb : prev_layer_order.getD [] ≠ []
    · rw [if_pos hb]
      exact List.mergeSort_perm _ _
    · rw [if_neg hb]
      exact firstLayerOrder_perm layer_resources outgoing incoming

/-- Modelled from the spec wording of §4.4 (first layer): sort resources by
connectivity score descending, place the highest-score resource centrally,
append the remaining resources alternately to a left list (1st, 3rd, ...)
and a right list (2nd, 4th, ...), and return
`reversed(left) ++ [highest] ++ right`. -/
def specFirstLayerOrder (layer_resources : List AzureResource)
    (outgoing incoming : Dict (List String)) : List AzureResource :=
  let sorted := ((layer_resources.map
    (fun r => (r, calculate_connectivity_score r.id outgoing incoming))).mergeSort
      (fun a b => decide (b.2 ≤ a.2))).map (fun p => p.1)
  match sorted with
  | [] => []
  | highest :: extras =>
      let p := parityCollect true extras
      p.1.reverse ++ highest :: p.2

theorem firstLayerOrder_eq_spec (layer_resources : List AzureResource)
    (outgoing incoming : Dict (List String)) :
    firstLayerOrder layer_resources outgoing incoming =
      specFirstLayerOrder layer_resources outgoing incoming := by
  simp only [firstLayerOrder, specFirstLayerOrder]
  cases hs : (layer_resources.map
      (fun r => (r, calculate_connectivity_score r.id outgoing incoming))).mergeSort
        (fun a b => decide (b.2 ≤ a.2)) with
  | nil => simp [List.enum, interStep]
  | cons p rest =>
      rw [List.enum_cons, List.foldl_cons]
      have hstep0 : interStep (fun p => p.1) (([], [], []) :
          List AzureResource × List AzureResource × List AzureResource) (0, p) =
          ([p.1], [], []) := by
        simp [interStep]
      rw [hstep0, interFold_enumFrom _ _ 1 (le_refl 1)]
      have hone : decide ((1 : Nat) % 2 = 1) = true := by decide
      rw [hone]
      simp [List.append_assoc]

/-- C9: with no previous-layer order, `order_within_layer` computes exactly
the spec's reference order: connectivity-sorted descending, highest element
central, remaining elements alternately pushed left and right, result
`reversed(left) ++ [highest] ++ right`. -/
theorem C9_first_layer_refines_spec (layer_resources : List AzureResource)
    (outgoing incoming : Dict (List String)) :
    order_within_layer layer_resources outgoing incoming none =
      specFirstLayerOrder layer_resources outgoing incoming := by
  unfold order_within_layer
  by_cases he : layer_resources = []
  · subst he
    simp [specFirstLayerOrder]
  · rw [if_neg he]
    have : ¬((none : Option (List String)).getD [] ≠ []) := by simp
    rw [if_neg this]
    exact firstLayerOrder_eq_spec layer_resources outgoing incoming

/-! ## Layer assignment (`assign_layers`), with explicit fuel -/

/-- The source-detection loop of `assign_layers`: a resource is a source when
it has no `incoming` entry, an empty one, or one whose in-set filtering is
empty. -/
def sourcesOf (resources : List AzureResource) (incoming : Dict (List String))
    (resource_ids : List String) : List String :=
  resources.foldl
    (fun sources r =>
      match dGet? incoming r.id with
      | none => sources ++ [r.id]
      | some l =>
          if l = [] then sources ++ [r.id]
          else if l.filter (fun s => decide (s ∈ resource_ids)) = [] then
            sources ++ [r.id]
          else sources)
    []

/-- The inner relaxation loop of the BFS: for each target of the popped node
that lies in the resource set, assign `current_layer + 1` when unvisited or
when strictly larger than the stored layer, enqueueing on every update. -/
def relaxTargets (resource_ids : List String) (current_layer : Nat)
    (st : Dict Nat × List String) (targets : List String) : Dict Nat × List String :=
  targets.foldl
    (fun st target =>
      if target ∈ resource_ids then
        let new_layer := current_layer + 1
        match dGet? st.1 target with
        | none => (dSet st.1 target new_layer, st.2 ++ [target])
        | some old =>
            if old < new_layer then (dSet st.1 target new_layer, st.2 ++ [target])
            else st
      else st)
    st

/-- The `while queue` loop of `assign_layers`, with explicit fuel: `none`
means the queue had not emptied after `fuel` iterations (the source runs the
loop without any bound). -/
def bfsLoop (outgoing : Dict (List String)) (resource_ids : List String) :
    Nat → Dict Nat → List String → Option (Dict Nat)
  | 0, _, _ => none
  | _ + 1, layers, [] => some layers
  | fuel + 1, layers, node :: rest =>
      let current_layer := dGetD layers node 0
      let st := relaxTargets resource_ids current_layer (layers, [])
        (dGetD outgoing node [])
      bfsLoop outgoing resource_ids fuel st.1 (rest ++ st.2)

/-- `assign_layers` from `topology_layout.py`, its BFS loop bounded by
`fuel`. -/
def assign_layersF (fuel : Nat) (resources : List AzureResource)
    (connections : List Connection) : Option (Dict Nat) :=
  let resource_ids := resources.map (fun r => r.id)
  let g := build_adjacency_graph connections
  let sources := sourcesOf resources g.incoming resource_ids
  let layers0 := sources.foldl (fun d s => dSet d s 0) []
  match bfsLoop g.outgoing resource_ids fuel layers0 sources with
  | none => none
  | some layers => some (resources.foldl (fun d r => dEnsure d r.id 0) layers)

theorem assign_layersF_eq (fuel : Nat) (resources : List AzureResource)
    (connections : List Connection) :
    assign_layersF fuel resources connections =
      match bfsLoop (build_adjacency_graph connections).outgoing
          (resources.map (fun r => r.id)) fuel
          ((sourcesOf resources (build_adjacency_graph connections).incoming
            (resources.map (fun r => r.id))).foldl (fun d s => dSet d s 0) [])
          (sourcesOf resources (build_adjacency_graph connections).incoming
            (resources.map (fun r => r.id))) with
      | none => none
      | some layers => some (resources.foldl (fun d r => dEnsure d r.id 0) layers) := rfl

/-- A 3-node instance whose cycle is reachable from the source `s`. -/
def cycResources : List AzureResource := [{ id := "s" }, { id := "a" }, { id := "b" }]

/-- Connections `s → a → b → a` of the seeded-cycle instance. -/
def cycConnections : List Connection :=
  [{ source := "s", target := "a" }, { source := "a", target := "b" },
   { source := "b", target := "a" }]

/-- The two-node pure 2-cycle instance `a → b → a`. -/
def twoCycleResources : List AzureResource := [{ id := "a" }, { id := "b" }]

/-- Connections of the pure 2-cycle instance. -/
def twoCycleConnections : List Connection :=
  [{ source := "a", target := "b" }, { source := "b", target := "a" }]

theorem cyc_outgoing :
    (build_adjacency_graph cycConnections).outgoing =
      [("s", ["a"]), ("a", ["b"]), ("b", ["a"])] := by
  decide

theorem cyc_states_loop (fuel : Nat) :
    ∀ m : Nat,
      bfsLoop [("s", ["a"]), ("a", ["b"]), ("b", ["a"])] ["s", "a", "b"] fuel
        [("s", 0), ("a", 2 * m + 3), ("b", 2 * m + 2)] ["a"] = none ∧
      bfsLoop [("s", ["a"]), ("a", ["b"]), ("b", ["a"])] ["s", "a", "b"] fuel
        [("s", 0), ("a", 2 * m + 3), ("b", 2 * m + 4)] ["b"] = none := by
  induction fuel with
  | zero => intro m; exact ⟨rfl, rfl⟩
  | succ fuel ih =>
      intro m
      constructor
      · have hlt : 2 * m + 2 < 2 * m + 3 + 1 := by omega
        have hred : bfsLoop [("s", ["a"]), ("a", ["b"]), ("b", ["a"])] ["s", "a", "b"]
            (fuel + 1) [("s", 0), ("a", 2 * m + 3), ("b", 2 * m + 2)] ["a"] =
            bfsLoop [("s", ["a"]), ("a", ["b"]), ("b", ["a"])] ["s", "a", "b"] fuel
              [("s", 0), ("a", 2 * m + 3), ("b", 2 * m + 3 + 1)] ["b"] := by
          simp [bfsLoop, relaxTargets, dGetD, dGet?, dSet, dUpd, hlt]
        rw [hred]
        have : 2 * m + 3 + 1 = 2 * m + 4 := by omega
        rw [this]
        exact (ih m).2
      · have hlt : 2 * m + 3 < 2 * m + 4 + 1 := by omega
        have hred : bfsLoop [("s", ["a"]), ("a", ["b"]), ("b", ["a"])] ["s", "a", "b"]
            (fuel + 1) [("s", 0), ("a", 2 * m + 3), ("b", 2 * m + 4)] ["b"] =
            bfsLoop [("s", ["a"]), ("a", ["b"]), ("b", ["a"])] ["s", "a", "b"] fuel
              [("s", 0), ("a", 2 * m + 4 + 1), ("b", 2 * m + 4)] ["a"] := by
          simp [bfsLoop, relaxTargets, dGetD, dGet?, dSet, dUpd, hlt]
        rw [hred]
        have h1 : 2 * m + 4 + 1 = 2 * (m + 1) + 3 := by omega
        have h2 : 2 * m + 4 = 2 * (m + 1) + 2 := by omega
        rw [h1, h2]
        exact (ih (m + 1)).1

theorem cyc_bfs_none (fuel : Nat) :
    bfsLoop [("s", ["a"]), ("a", ["b"]), ("b", ["a"])] ["s", "a", "b"] fuel
      [("s", 0)] ["s"] = none := by
  match fuel with
  | 0 => rfl
  | 1 => rfl
  | 2 => rfl
  | 3 => rfl
  | (f + 4) =>
      have hred : bfsLoop [("s", ["a"]), ("a", ["b"]), ("b", ["a"])] ["s", "a", "b"]
          (f + 4) [("s", 0)] ["s"] =
          bfsLoop [("s", ["a"]), ("a", ["b"]), ("b", ["a"])] ["s", "a", "b"] (f + 1)
            [("s", 0), ("a", 3), ("b", 2)] ["a"] := by
        simp [bfsLoop, relaxTargets, dGetD, dGet?, dSet, dUpd]
      rw [hred]
      have := (cyc_states_loop (f + 1) 0).1
      simpa using this

/-- C8: the claim that `assign_layers` terminates on every input fails — on
the seeded cycle `s → a → b → a` the BFS re-enqueues `a` and `b` forever
with strictly growing layers, so no amount of fuel completes it — while the
pure 2-cycle `a → b → a` of the claim's scenario does terminate with both
resources at layer 0. -/
theorem C8_assign_layers_termination :
    (∀ fuel : Nat, assign_layersF fuel cycResources cycConnections = none) ∧
      assign_layersF 1 twoCycleResources twoCycleConnections =
        some [("a", 0), ("b", 0)] := by
  constructor
  · intro fuel
    have hsrc : sourcesOf cycResources (build_adjacency_graph cycConnections).incoming
        (cycResources.map (fun r => r.id)) = ["s"] := by decide
    rw [assign_layersF_eq]
    rw [hsrc, cyc_outgoing]
    have h0 : (["s"].foldl (fun d s => dSet d s 0) ([] : Dict Nat)) = [("s", 0)] := by
      decide
    rw [h0]
    have hids : cycResources.map (fun r => r.id) = ["s", "a", "b"] := by decide
    rw [hids, cyc_bfs_none fuel]
  · decide

/-! ## Termination and edge monotonicity of the BFS on acyclic inputs -/

/-- Encoding of a stored layer entry for the termination potential:
missing entries weigh most, larger layers weigh less. -/
def layerEnc (o : Option Nat) : Nat :=
  match o with
  | none => 0
  | some l => l + 1

/-- Weight of one id in the termination potential. -/
def wt (B : Nat) (layers : Dict Nat) (k : String) : Nat :=
  B + 1 - layerEnc (dGet? layers k)

/-- Termination potential of a layer dictionary over the resource ids. -/
def pot (B : Nat) (layers : Dict Nat) (ids : List String) : Nat :=
  (ids.map (wt B layers)).sum

theorem sum_map_le_sum_map (l : List String) (f g : String → Nat)
    (h : ∀ x ∈ l, f x ≤ g x) : (l.map f).sum ≤ (l.map g).sum := by
  induction l with
  | nil => simp
  | cons x rest ih =>
      simp only [List.map_cons, List.sum_cons]
      have h1 := h x (List.mem_cons_self x rest)
      have h2 := ih (fun y hy => h y (List.mem_cons_of_mem x hy))
      omega

theorem sum_map_lt_sum_map (l : List String) (f g : String → Nat)
    (h : ∀ x ∈ l, f x ≤ g x) (t : String) (ht : t ∈ l) (hlt : f t + 1 ≤ g t) :
    (l.map f).sum + 1 ≤ (l.map g).sum := by
  induction l with
  | nil => simp at ht
  | cons x rest ih =>
      simp only [List.map_cons, List.sum_cons]
      rcases List.mem_cons.mp ht with hx | hx
      · subst hx
        have h2 := sum_map_le_sum_map rest f g
          (fun y hy => h y (List.mem_cons_of_mem t hy))
        omega
      · have h1 := h x (List.mem_cons_self x rest)
        have h2 := ih (fun y hy => h y (List.mem_cons_of_mem x hy)) hx
        omega

/-- Invariant carried by the BFS loop state. -/
def LayerInv (outg : Dict (List String)) (ids : List String) (rank : String → Nat)
    (layers : Dict Nat) (queue : List String) : Prop :=
  (∀ k l, dGet? layers k = some l → k ∈ ids ∧ l ≤ rank k) ∧
    (∀ q ∈ queue, ∃ l, dGet? layers q = some l) ∧
    (∀ u lu, dGet? layers u = some lu → ∀ v, v ∈ dGetD outg u [] → v ∈ ids →
      (∃ lv, dGet? layers v = some lv ∧ lu + 1 ≤ lv) ∨ u ∈ queue)

theorem wt_congr (B : Nat) (layers layers2 : Dict Nat) (k : String)
    (h : dGet? layers2 k = dGet? layers k) : wt B layers2 k = wt B layers k := by
  unfold wt
  rw [h]

/-- Full specification of one pass of the relaxation loop. -/
theorem relax_spec (outg : Dict (List String)) (ids : List String)
    (rank : String → Nat) (B : Nat)
    (hedge : ∀ u v, v ∈ dGetD outg u [] → u ∈ ids → v ∈ ids → rank u < rank v)
    (hB : ∀ u ∈ ids, rank u ≤ B)
    (n : String) (cur : Nat) (hn : n ∈ ids) (hcur : cur ≤ rank n)
    (targets : List String) (hsub : ∀ t ∈ targets, t ∈ dGetD outg n [])
    (layers : Dict Nat) (q : List String)
    (hinv1 : ∀ k l, dGet? layers k = some l → k ∈ ids ∧ l ≤ rank k) :
    (∀ k l, dGet? layers k = some l →
        ∃ l2, dGet? (relaxTargets ids cur (layers, q) targets).1 k = some l2 ∧ l ≤ l2) ∧
      (∀ k l, dGet? (relaxTargets ids cur (layers, q) targets).1 k = some l →
        k ∈ ids ∧ l ≤ rank k) ∧
      (∃ extra, (relaxTargets ids cur (layers, q) targets).2 = q ++ extra ∧
        (∀ x ∈ extra, ∃ l, dGet? (relaxTargets ids cur (layers, q) targets).1 x = some l) ∧
        pot B (relaxTargets ids cur (layers, q) targets).1 ids + extra.length ≤
          pot B layers ids ∧
        (∀ u, dGet? (relaxTargets ids cur (layers, q) targets).1 u ≠ dGet? layers u →
          u ∈ extra)) ∧
      (∀ t ∈ targets, t ∈ ids →
        ∃ lt, dGet? (relaxTargets ids cur (layers, q) targets).1 t = some lt ∧
          cur + 1 ≤ lt) := by
  induction targets generalizing layers q with
  | nil =>
      refine ⟨fun k l h => ⟨l, h, le_refl l⟩, hinv1,
        ⟨[], by simp [relaxTargets], by simp [relaxTargets], ?_, ?_⟩, by simp⟩
      · simp [relaxTargets]
      · intro u hu
        simp [relaxTargets] at hu
  | cons t ts ih =>
      have hsub2 : ∀ x ∈ ts, x ∈ dGetD outg n [] :=
        fun x hx => hsub x (List.mem_cons_of_mem t hx)
      by_cases htid : t ∈ ids
      · have htrank : cur + 1 ≤ rank t := by
          have := hedge n t (hsub t (List.mem_cons_self t ts)) hn htid
          omega
        have htB : rank t ≤ B := hB t htid
        -- the updated value written when a relaxation fires
        cases hget : dGet? layers t with
        | none =>
            have hunf : relaxTargets ids cur (layers, q) (t :: ts) =
                relaxTargets ids cur (dSet layers t (cur + 1), q ++ [t]) ts := by
              simp [relaxTargets, htid, hget]
            rw [hunf]
            have hinv1a : ∀ k l, dGet? (dSet layers t (cur + 1)) k = some l →
                k ∈ ids ∧ l ≤ rank k := by
              intro k l hk
              by_cases hkt : k = t
              · subst hkt
                rw [dGet?_dSet_self] at hk
                cases hk
                exact ⟨htid, htrank⟩
              · rw [dGet?_dSet_ne _ _ _ _ hkt] at hk
                exact hinv1 k l hk
            obtain ⟨ha, hb, ⟨extra, he1, he2, he3, he4⟩, hd⟩ := ih hsub2 (dSet layers t (cur + 1))
              (q ++ [t]) hinv1a
            refine ⟨?_, hb, ⟨t :: extra, ?_, ?_, ?_, ?_⟩, ?_⟩
            · intro k l hk
              by_cases hkt : k = t
              · subst hkt
                rw [hget] at hk
                cases hk
              · exact ha k l (by rw [dGet?_dSet_ne _ _ _ _ hkt]; exact hk)
            · rw [he1]
              simp
            · intro x hx
              rcases List.mem_cons.mp hx with hx | hx
              · obtain ⟨l2, hl2, _⟩ := ha t (cur + 1) (dGet?_dSet_self _ _ _)
                exact ⟨l2, by rw [hx]; exact hl2⟩
              · exact he2 x hx
            · have hwt : wt B (dSet layers t (cur + 1)) t + 1 ≤ wt B layers t := by
                unfold wt
                rw [dGet?_dSet_self, hget]
                simp only [layerEnc]
                omega
              have hwle : ∀ x ∈ ids, wt B (dSet layers t (cur + 1)) x ≤ wt B layers x := by
                intro x hx
                by_cases hxt : x = t
                · subst hxt
                  omega
                · rw [wt_congr B layers _ x (dGet?_dSet_ne _ _ _ _ hxt)]
              have hstep : pot B (dSet layers t (cur + 1)) ids + 1 ≤ pot B layers ids :=
                sum_map_lt_sum_map ids _ _ hwle t htid hwt
              simp only [List.length_cons]
              omega
            · intro u hu
              by_cases hchg : dGet? (relaxTargets ids cur
                  (dSet layers t (cur + 1), q ++ [t]) ts).1 u =
                  dGet? (dSet layers t (cur + 1)) u
              · rw [hchg] at hu
                by_cases hut : u = t
                · rw [hut]
                  exact List.mem_cons_self t extra
                · rw [dGet?_dSet_ne _ _ _ _ hut] at hu
                  exact absurd rfl hu
              · exact List.mem_cons_of_mem t (he4 u hchg)
            · intro x hx hxid
              rcases List.mem_cons.mp hx with hx | hx
              · obtain ⟨l2, hl2, hle2⟩ := ha t (cur + 1) (dGet?_dSet_self _ _ _)
                exact ⟨l2, by rw [hx]; exact hl2, by omega⟩
              · exact hd x hx hxid
        | some old =>
            by_cases hlt : old < cur + 1
            · have hunf : relaxTargets ids cur (layers, q) (t :: ts) =
                  relaxTargets ids cur (dSet layers t (cur + 1), q ++ [t]) ts := by
                simp [relaxTargets, htid, hget, hlt]
              rw [hunf]
              have hinv1a : ∀ k l, dGet? (dSet layers t (cur + 1)) k = some l →
                  k ∈ ids ∧ l ≤ rank k := by
                intro k l hk
                by_cases hkt : k = t
                · subst hkt
                  rw [dGet?_dSet_self] at hk
                  cases hk
                  exact ⟨htid, htrank⟩
                · rw [dGet?_dSet_ne _ _ _ _ hkt] at hk
                  exact hinv1 k l hk
              obtain ⟨ha, hb, ⟨extra, he1, he2, he3, he4⟩, hd⟩ := ih hsub2 (dSet layers t (cur + 1))
                (q ++ [t]) hinv1a
              refine ⟨?_, hb, ⟨t :: extra, ?_, ?_, ?_, ?_⟩, ?_⟩
              · intro k l hk
                by_cases hkt : k = t
                · rw [hkt] at hk ⊢
                  rw [hget] at hk
                  cases hk
                  obtain ⟨l2, hl2, hle2⟩ := ha t (cur + 1) (dGet?_dSet_self _ _ _)
                  exact ⟨l2, hl2, by omega⟩
                · exact ha k l (by rw [dGet?_dSet_ne _ _ _ _ hkt]; exact hk)
              · rw [he1]
                simp
              · intro x hx
                rcases List.mem_cons.mp hx with hx | hx
                · obtain ⟨l2, hl2, _⟩ := ha t (cur + 1) (dGet?_dSet_self _ _ _)
                  exact ⟨l2, by rw [hx]; exact hl2⟩
                · exact he2 x hx
              · have hwt : wt B (dSet layers t (cur + 1)) t + 1 ≤ wt B layers t := by
                  unfold wt
                  rw [dGet?_dSet_self, hget]
                  simp only [layerEnc]
                  omega
                have hwle : ∀ x ∈ ids, wt B (dSet layers t (cur + 1)) x ≤ wt B layers x := by
                  intro x hx
                  by_cases hxt : x = t
                  · subst hxt
                    omega
                  · rw [wt_congr B layers _ x (dGet?_dSet_ne _ _ _ _ hxt)]
                have hstep : pot B (dSet layers t (cur + 1)) ids + 1 ≤ pot B layers ids :=
                  sum_map_lt_sum_map ids _ _ hwle t htid hwt
                simp only [List.length_cons]
                omega
              · intro u hu
                by_cases hchg : dGet? (relaxTargets ids cur
                    (dSet layers t (cur + 1), q ++ [t]) ts).1 u =
                    dGet? (dSet layers t (cur + 1)) u
                · rw [hchg] at hu
                  by_cases hut : u = t
                  · rw [hut]
                    exact List.mem_cons_self t extra
                  · rw [dGet?_dSet_ne _ _ _ _ hut] at hu
                    exact absurd rfl hu
                · exact List.mem_cons_of_mem t (he4 u hchg)
              · intro x hx hxid
                rcases List.mem_cons.mp hx with hx | hx
                · obtain ⟨l2, hl2, hle2⟩ := ha t (cur + 1) (dGet?_dSet_self _ _ _)
                  exact ⟨l2, by rw [hx]; exact hl2, by omega⟩
                · exact hd x hx hxid
            · have hunf : relaxTargets ids cur (layers, q) (t :: ts) =
                  relaxTargets ids cur (layers, q) ts := by
                simp [relaxTargets, htid, hget, hlt]
              rw [hunf]
              obtain ⟨ha, hb, hc, hd⟩ := ih hsub2 layers q hinv1
              refine ⟨ha, hb, hc, ?_⟩
              intro x hx hxid
              rcases List.mem_cons.mp hx with hx | hx
              · obtain ⟨l2, hl2, hle2⟩ := ha t old hget
                exact ⟨l2, by rw [hx]; exact hl2, by omega⟩
              · exact hd x hx hxid
      · have hunf : relaxTargets ids cur (layers, q) (t :: ts) =
            relaxTargets ids cur (layers, q) ts := by
          simp [relaxTargets, htid]
        rw [hunf]
        obtain ⟨ha, hb, hc, hd⟩ := ih hsub2 layers q hinv1
        refine ⟨ha, hb, hc, ?_⟩
        intro x hx hxid
        rcases List.mem_cons.mp hx with hx | hx
        · rw [hx] at hxid
          exact absurd hxid htid
        · exact hd x hx hxid

/-- With enough fuel (any bound above the potential), the BFS loop finishes,
its final state keeps the invariant with an empty queue, and every assigned
entry persists. -/
theorem bfs_terminates (outg : Dict (List String)) (ids : List String)
    (rank : String → Nat) (B : Nat)
    (hedge : ∀ u v, v ∈ dGetD outg u [] → u ∈ ids → v ∈ ids → rank u < rank v)
    (hB : ∀ u ∈ ids, rank u ≤ B) :
    ∀ fuel layers queue,
      LayerInv outg ids rank layers queue →
      2 * pot B layers ids + queue.length < fuel →
      ∃ final, bfsLoop outg ids fuel layers queue = some final ∧
        LayerInv outg ids rank final [] ∧
        (∀ k l, dGet? layers k = some l → ∃ l2, dGet? final k = some l2) := by
  intro fuel
  induction fuel with
  | zero =>
      intro layers queue hinv hphi
      omega
  | succ fuel ih =>
      intro layers queue hinv hphi
      cases queue with
      | nil =>
          refine ⟨layers, rfl, ?_, fun k l h => ⟨l, h⟩⟩
          exact hinv
      | cons node rest =>
          obtain ⟨hinv1, hinv2, hinv3⟩ := hinv
          obtain ⟨cur, hcur⟩ := hinv2 node (List.mem_cons_self node rest)
          have hnode := hinv1 node cur hcur
          have hgd : dGetD layers node 0 = cur := by simp [dGetD, hcur]
          have hstep : bfsLoop outg ids (fuel + 1) layers (node :: rest) =
              bfsLoop outg ids fuel
                (relaxTargets ids (dGetD layers node 0) (layers, [])
                  (dGetD outg node [])).1
                (rest ++ (relaxTargets ids (dGetD layers node 0) (layers, [])
                  (dGetD outg node [])).2) := rfl
          rw [hgd] at hstep
          obtain ⟨ha, hb, ⟨extra, he1, he2, he3, he4⟩, hd⟩ :=
            relax_spec outg ids rank B hedge hB node cur hnode.1 hnode.2
              (dGetD outg node []) (fun t ht => ht) layers [] hinv1
          rw [he1] at hstep
          simp only [List.nil_append] at hstep
          have hinv2A : ∀ q ∈ rest ++ extra,
              ∃ l, dGet? (relaxTargets ids cur (layers, [])
                (dGetD outg node [])).1 q = some l := by
            intro q hq
            rcases List.mem_append.mp hq with hq | hq
            · obtain ⟨l, hl⟩ := hinv2 q (List.mem_cons_of_mem node hq)
              obtain ⟨l2, hl2, _⟩ := ha q l hl
              exact ⟨l2, hl2⟩
            · exact he2 q hq
          have hinv3A : ∀ u lu,
              dGet? (relaxTargets ids cur (layers, [])
                (dGetD outg node [])).1 u = some lu →
              ∀ v, v ∈ dGetD outg u [] → v ∈ ids →
              (∃ lv, dGet? (relaxTargets ids cur (layers, [])
                (dGetD outg node [])).1 v = some lv ∧ lu + 1 ≤ lv) ∨
                u ∈ rest ++ extra := by
            intro u lu hu v hv hvids
            by_cases hchg : dGet? (relaxTargets ids cur (layers, [])
                (dGetD outg node [])).1 u = dGet? layers u
            · have hu' : dGet? layers u = some lu := by rw [← hchg]; exact hu
              by_cases hun : u = node
              · subst hun
                have hlu : lu = cur := by
                  rw [hu'] at hcur
                  exact Option.some.injEq _ _ ▸ hcur
                obtain ⟨lt, hlt, hle⟩ := hd v hv hvids
                exact Or.inl ⟨lt, hlt, by omega⟩
              · rcases hinv3 u lu hu' v hv hvids with ⟨lv, hlv, hle⟩ | hmem
                · obtain ⟨lv2, hlv2, hle2⟩ := ha v lv hlv
                  exact Or.inl ⟨lv2, hlv2, by omega⟩
                · rcases List.mem_cons.mp hmem with hx | hx
                  · exact absurd hx hun
                  · exact Or.inr (List.mem_append_left extra hx)
            · exact Or.inr (List.mem_append_right rest (he4 u hchg))
          have hphiA : 2 * pot B (relaxTargets ids cur (layers, [])
              (dGetD outg node [])).1 ids + (rest ++ extra).length < fuel := by
            simp only [List.length_append]
            simp only [List.length_cons] at hphi
            omega
          obtain ⟨final, hrun, hinvF, hpers⟩ :=
            ih (relaxTargets ids cur (layers, []) (dGetD outg node [])).1
              (rest ++ extra) ⟨hb, hinv2A, hinv3A⟩ hphiA
          refine ⟨final, ?_, hinvF, ?_⟩
          · rw [hstep]
            exact hrun
          · intro k l hk
            obtain ⟨l2, hl2, _⟩ := ha k l hk
            exact hpers k l2 hl2

theorem sourcesOf_acc (incoming : Dict (List String)) (resource_ids : List String) :
    ∀ (rs : List AzureResource) (acc : List String),
      rs.foldl
        (fun sources r =>
          match dGet? incoming r.id with
          | none => sources ++ [r.id]
          | some l =>
              if l = [] then sources ++ [r.id]
              else if l.filter (fun s => decide (s ∈ resource_ids)) = [] then
                sources ++ [r.id]
              else sources) acc =
      acc ++ sourcesOf rs incoming resource_ids := by
  intro rs
  induction rs with
  | nil => intro acc; simp [sourcesOf]
  | cons r rest ih =>
      intro acc
      unfold sourcesOf
      simp only [List.foldl_cons]
      rw [ih, ih]
      cases hg : dGet? incoming r.id with
      | none => simp
      | some l =>
          by_cases hl : l = []
          · simp [hl]
          · by_cases hf : l.filter (fun s => decide (s ∈ resource_ids)) = []
            · simp [hl, hf]
            · simp [hl, hf]

theorem sourcesOf_cons (incoming : Dict (List String)) (resource_ids : List String)
    (r : AzureResource) (rest : List AzureResource) :
    sourcesOf (r :: rest) incoming resource_ids =
      (if (dGetD incoming r.id []).filter (fun s => decide (s ∈ resource_ids)) = []
        then [r.id] else []) ++ sourcesOf rest incoming resource_ids := by
  unfold sourcesOf
  simp only [List.foldl_cons]
  rw [sourcesOf_acc]
  congr 1
  cases hg : dGet? incoming r.id with
  | none =>
      have hd : dGetD incoming r.id [] = [] := by simp [dGetD, hg]
      simp [hd]
  | some l =>
      have hd : dGetD incoming r.id [] = l := by simp [dGetD, hg]
      rw [hd]
      by_cases hl : l = []
      · simp [hl]
      · by_cases hf : l.filter (fun s => decide (s ∈ resource_ids)) = []
        · simp [hl, hf]
        · simp [hl, hf]

theorem mem_sourcesOf_intro (resources : List AzureResource)
    (incoming : Dict (List String)) (resource_ids : List String)
    (r : AzureResource) (hr : r ∈ resources)
    (hfilter : (dGetD incoming r.id []).filter (fun s => decide (s ∈ resource_ids)) = []) :
    r.id ∈ sourcesOf resources incoming resource_ids := by
  induction resources with
  | nil => simp at hr
  | cons a rest ih =>
      rw [sourcesOf_cons]
      rcases List.mem_cons.mp hr with hra | hra
      · subst hra
        rw [if_pos hfilter]
        simp
      · exact List.mem_append_right _ (ih hra)

theorem sourcesOf_mem_ids (resources : List AzureResource)
    (incoming : Dict (List String)) (resource_ids : List String) :
    ∀ x ∈ sourcesOf resources incoming resource_ids, ∃ r ∈ resources, r.id = x := by
  induction resources with
  | nil => intro x hx; simp [sourcesOf] at hx
  | cons a rest ih =>
      intro x hx
      rw [sourcesOf_cons] at hx
      rcases List.mem_append.mp hx with hx | hx
      · by_cases hc : (dGetD incoming a.id []).filter
            (fun s => decide (s ∈ resource_ids)) = []
        · rw [if_pos hc] at hx
          rcases List.mem_singleton.mp hx with rfl
          exact ⟨a, List.mem_cons_self a rest, rfl⟩
        · rw [if_neg hc] at hx
          simp at hx
      · obtain ⟨r, hrm, hrid⟩ := ih x hx
        exact ⟨r, List.mem_cons_of_mem a hrm, hrid⟩

theorem fold_dSet0_get (ss : List String) :
    ∀ (acc : Dict Nat) (k : String),
      dGet? (ss.foldl (fun d s => dSet d s 0) acc) k =
        if k ∈ ss then some 0 else dGet? acc k := by
  induction ss with
  | nil => intro acc k; simp
  | cons s rest ih =>
      intro acc k
      rw [List.foldl_cons, ih]
      by_cases hk : k ∈ rest
      · simp [hk]
      · simp only [hk, if_false, Bool.false_eq_true]
        by_cases hks : k = s
        · subst hks
          simp [dGet?_dSet_self, List.mem_cons]
        · rw [dGet?_dSet_ne acc s k 0 hks]
          simp [List.mem_cons, hks, hk]

theorem cleanup_preserves (resources : List AzureResource) :
    ∀ (d : Dict Nat) (k : String) (l : Nat), dGet? d k = some l →
      dGet? (resources.foldl (fun d r => dEnsure d r.id 0) d) k = some l := by
  induction resources with
  | nil => intro d k l h; simpa using h
  | cons r rest ih =>
      intro d k l h
      rw [List.foldl_cons]
      apply ih
      by_cases hk : k = r.id
      · subst hk
        rw [dGet?_dEnsure_self]
        simp [dGetD, h]
      · rw [dGet?_dEnsure_ne _ _ _ _ hk]
        exact h

/-- Greatest element of a list of naturals (0 when empty). -/
def listMax (l : List Nat) : Nat := l.foldr max 0

theorem le_listMax (l : List Nat) (x : Nat) (hx : x ∈ l) : x ≤ listMax l := by
  induction l with
  | nil => simp at hx
  | cons a rest ih =>
      unfold listMax
      rcases List.mem_cons.mp hx with h | h
      · subst h
        simp [listMax]
      · have := ih h
        unfold listMax at this
        simp only [List.foldr_cons]
        omega

/-- C1: on any input whose in-set connection graph is acyclic — witnessed by
a rank function strictly increasing along every in-set edge — the BFS of
`assign_layers` terminates (some fuel suffices) and the returned layer map
satisfies `layer(target) ≥ layer(source) + 1` for every connection with both
endpoints in the resource set. -/
theorem C1_assign_layers_acyclic (resources : List AzureResource)
    (connections : List Connection) (rank : String → Nat)
    (hacyc : ∀ c ∈ connections, c.source ∈ resources.map (fun r => r.id) →
      c.target ∈ resources.map (fun r => r.id) → rank c.source < rank c.target) :
    ∃ fuel layers, assign_layersF fuel resources connections = some layers ∧
      ∀ c ∈ connections, c.source ∈ resources.map (fun r => r.id) →
        c.target ∈ resources.map (fun r => r.id) →
        dGetD layers c.source 0 + 1 ≤ dGetD layers c.target 0 := by
  have hedge : ∀ u v, v ∈ dGetD (build_adjacency_graph connections).outgoing u [] →
      u ∈ resources.map (fun r => r.id) → v ∈ resources.map (fun r => r.id) →
      rank u < rank v := by
    intro u v hv hu hvi
    rw [build_outgoing_getD] at hv
    obtain ⟨c, hcf, hct⟩ := List.mem_map.mp hv
    obtain ⟨hcmem, hcsrc⟩ := List.mem_filter.mp hcf
    have hcsrc2 : c.source = u := by simpa using hcsrc
    rw [← hcsrc2, ← hct]
    exact hacyc c hcmem (hcsrc2 ▸ hu) (hct ▸ hvi)
  have hB : ∀ u ∈ resources.map (fun r => r.id), rank u ≤
      listMax ((resources.map (fun r => r.id)).map rank) :=
    fun u hu => le_listMax _ _ (List.mem_map_of_mem rank hu)
  have hsrc_ids : ∀ x ∈ sourcesOf resources (build_adjacency_graph connections).incoming
      (resources.map (fun r => r.id)), x ∈ resources.map (fun r => r.id) := by
    intro x hx
    obtain ⟨r, hr, hrid⟩ := sourcesOf_mem_ids resources _ _ x hx
    exact hrid ▸ List.mem_map_of_mem (fun r => r.id) hr
  have hlay0 : ∀ k, dGet? ((sourcesOf resources
      (build_adjacency_graph connections).incoming
      (resources.map (fun r => r.id))).foldl (fun d s => dSet d s 0) []) k =
      if k ∈ sourcesOf resources (build_adjacency_graph connections).incoming
        (resources.map (fun r => r.id)) then some 0 else none := by
    intro k
    rw [fold_dSet0_get]
    simp [dGet?]
  have hinv0 : LayerInv (build_adjacency_graph connections).outgoing
      (resources.map (fun r => r.id)) rank
      ((sourcesOf resources (build_adjacency_graph connections).incoming
        (resources.map (fun r => r.id))).foldl (fun d s => dSet d s 0) [])
      (sourcesOf resources (build_adjacency_graph connections).incoming
        (resources.map (fun r => r.id))) := by
    refine ⟨?_, ?_, ?_⟩
    · intro k l hk
      rw [hlay0 k] at hk
      by_cases hmem : k ∈ sourcesOf resources
          (build_adjacency_graph connections).incoming (resources.map (fun r => r.id))
      · rw [if_pos hmem] at hk
        cases hk
        exact ⟨hsrc_ids k hmem, Nat.zero_le _⟩
      · rw [if_neg hmem] at hk
        cases hk
    · intro q hq
      refine ⟨0, ?_⟩
      rw [hlay0 q, if_pos hq]
    · intro u lu hu v hv hvids
      right
      rw [hlay0 u] at hu
      by_cases hmem : u ∈ sourcesOf resources
          (build_adjacency_graph connections).incoming (resources.map (fun r => r.id))
      · exact hmem
      · rw [if_neg hmem] at hu
        cases hu
  obtain ⟨final, hrun, ⟨hf1, hf2, hf3⟩, hpers⟩ :=
    bfs_terminates (build_adjacency_graph connections).outgoing
      (resources.map (fun r => r.id)) rank
      (listMax ((resources.map (fun r => r.id)).map rank)) hedge hB
      (2 * pot (listMax ((resources.map (fun r => r.id)).map rank))
        ((sourcesOf resources (build_adjacency_graph connections).incoming
          (resources.map (fun r => r.id))).foldl (fun d s => dSet d s 0) [])
        (resources.map (fun r => r.id)) +
        (sourcesOf resources (build_adjacency_graph connections).incoming
          (resources.map (fun r => r.id))).length + 1)
      ((sourcesOf resources (build_adjacency_graph connections).incoming
        (resources.map (fun r => r.id))).foldl (fun d s => dSet d s 0) [])
      (sourcesOf resources (build_adjacency_graph connections).incoming
        (resources.map (fun r => r.id)))
      hinv0 (by omega)
  have hassigned : ∀ n, ∀ v ∈ resources.map (fun r => r.id), rank v < n →
      ∃ l, dGet? final v = some l := by
    intro n
    induction n with
    | zero => intro v hv h; omega
    | succ n ihn =>
        intro v hv hrv
        by_cases hpred : ∃ c ∈ connections, c.target = v ∧
            c.source ∈ resources.map (fun r => r.id)
        · obtain ⟨c, hc, hct, hcs⟩ := hpred
          have hranklt : rank c.source < rank v := by
            rw [← hct]
            exact hacyc c hc hcs (hct ▸ hv)
          obtain ⟨lu, hlu⟩ := ihn c.source hcs (by omega)
          have hvout : v ∈ dGetD (build_adjacency_graph connections).outgoing
              c.source [] := by
            rw [build_outgoing_getD]
            exact List.mem_map.mpr ⟨c, List.mem_filter.mpr ⟨hc, by simp⟩, hct⟩
          rcases hf3 c.source lu hlu v hvout hv with ⟨lv, hlv, _⟩ | hmem
          · exact ⟨lv, hlv⟩
          · simp at hmem
        · push_neg at hpred
          obtain ⟨r, hr, hrid⟩ := List.mem_map.mp hv
          have hsrcv : v ∈ sourcesOf resources
              (build_adjacency_graph connections).incoming
              (resources.map (fun r => r.id)) := by
            rw [← hrid]
            apply mem_sourcesOf_intro resources _ _ r hr
            rw [build_incoming_getD]
            rw [List.filter_eq_nil_iff]
            intro x hxm
            obtain ⟨c, hcf, hcs⟩ := List.mem_map.mp hxm
            obtain ⟨hcmem, hctgt⟩ := List.mem_filter.mp hcf
            have hctgt2 : c.target = r.id := by simpa using hctgt
            have := hpred c hcmem (by rw [hctgt2, hrid])
            rw [hcs] at this
            simpa using this
          refine hpers v 0 ?_
          rw [hlay0 v, if_pos hsrcv]
  refine ⟨2 * pot (listMax ((resources.map (fun r => r.id)).map rank))
      ((sourcesOf resources (build_adjacency_graph connections).incoming
        (resources.map (fun r => r.id))).foldl (fun d s => dSet d s 0) [])
      (resources.map (fun r => r.id)) +
      (sourcesOf resources (build_adjacency_graph connections).incoming
        (resources.map (fun r => r.id))).length + 1,
    resources.foldl (fun d r => dEnsure d r.id 0) final, ?_, ?_⟩
  · rw [assign_layersF_eq, hrun]
  · intro c hc hcs hct
    obtain ⟨lu, hlu⟩ := hassigned (rank c.source + 1) c.source hcs (by omega)
    have hvout : c.target ∈ dGetD (build_adjacency_graph connections).outgoing
        c.source [] := by
      rw [build_outgoing_getD]
      exact List.mem_map.mpr ⟨c, List.mem_filter.mpr ⟨hc, by simp⟩, rfl⟩
    rcases hf3 c.source lu hlu c.target hvout hct with ⟨lv, hlv, hle⟩ | hmem
    · have hgu := cleanup_preserves resources final c.source lu hlu
      have hgv := cleanup_preserves resources final c.target lv hlv
      rw [dGetD, dGetD, hgu, hgv]
      simpa using hle
    · simp at hmem

/-- The end-to-end scenario-A resource chain. -/
def chainResources : List AzureResource :=
  [{ id := "user" }, { id := "frontdoor" }, { id := "webapp" },
   { id := "sql" }, { id := "storage" }]

/-- The scenario-A connections `user → frontdoor → web app → {sql, storage}`. -/
def chainConnections : List Connection :=
  [{ source := "user", target := "frontdoor" },
   { source := "frontdoor", target := "webapp" },
   { source := "webapp", target := "sql" },
   { source := "webapp", target := "storage" }]

/-- A rank function witnessing acyclicity of the scenario-A chain. -/
def chainRank : String → Nat := fun id =>
  if id = "user" then 0
  else if id = "frontdoor" then 1
  else if id = "webapp" then 2
  else 3

/-- C1 witness: the acyclic scenario-A chain instantiates the theorem. -/
theorem C1_assign_layers_acyclic_witness :
    (∀ c ∈ chainConnections, c.source ∈ chainResources.map (fun r => r.id) →
      c.target ∈ chainResources.map (fun r => r.id) →
      chainRank c.source < chainRank c.target) ∧
    (∃ fuel layers, assign_layersF fuel chainResources chainConnections = some layers ∧
      ∀ c ∈ chainConnections, c.source ∈ chainResources.map (fun r => r.id) →
        c.target ∈ chainResources.map (fun r => r.id) →
        dGetD layers c.source 0 + 1 ≤ dGetD layers c.target 0) :=
  ⟨by decide,
    C1_assign_layers_acyclic chainResources chainConnections chainRank (by decide)⟩

/-! ## Group ordering (`optimize_group_order`) -/

/-- Per-group member count (`group_resource_count` in
`optimize_group_order`). -/
def group_resource_countOf (resources : List AzureResource) : Dict Nat :=
  resources.foldl
    (fun d r =>
      match r.group with
      | none => d
      | some g => dUpd d g 0 (fun n => n + 1)) []

/-- Per-group layer sum (`group_layer_sum` in `optimize_group_order`). -/
def group_layer_sumOf (layers : Dict Nat) (resources : List AzureResource) : Dict ℚ :=
  resources.foldl
    (fun d r =>
      match r.group with
      | none => d
      | some g => dUpd d g 0 (fun q => q + ((dGetD layers r.id 0 : ℕ) : ℚ))) []

/-- The average-layer value stored for a group id (`sum / count` when the
count is positive, else 0). -/
def groupAvgVal (layers : Dict Nat) (resources : List AzureResource)
    (gid : String) : ℚ :=
  let count := dGetD (group_resource_countOf resources) gid 0
  if 0 < count then dGetD (group_layer_sumOf layers resources) gid 0 / (count : ℚ)
  else 0

/-- The `group_avg_layer` dictionary of `optimize_group_order`. -/
def group_avg_layerOf (layers : Dict Nat) (groups : List ResourceGroup)
    (resources : List AzureResource) : Dict ℚ :=
  groups.foldl (fun d group => dSet d group.id (groupAvgVal layers resources group.id)) []

/-- `optimize_group_order` from `topology_layout.py`, with the fuel of its
`assign_layers` call (the dead `resource_to_group` mapping of the source is
omitted; it is never read). -/
def optimize_group_orderF (fuel : Nat) (groups : List ResourceGroup)
    (resources : List AzureResource) (connections : List Connection) :
    Option (List ResourceGroup) :=
  if groups = [] ∨ connections = [] then some groups
  else
    match assign_layersF fuel resources connections with
    | none => none
    | some layers =>
        some (groups.mergeSort (fun g1 g2 =>
          decide (dGetD (group_avg_layerOf layers groups resources) g1.id 0 ≤
            dGetD (group_avg_layerOf layers groups resources) g2.id 0)))

/-- Mean layer of a group's member resources (0 when it has none), as the
spec words it. -/
def meanLayer (layers : Dict Nat) (resources : List AzureResource)
    (g : ResourceGroup) : ℚ :=
  let members := resources.filter (fun r => r.group = some g.id)
  if members.length = 0 then 0
  else ((members.map (fun r => ((dGetD layers r.id 0 : ℕ) : ℚ))).sum) / (members.length : ℚ)

theorem group_count_get (gid : String) :
    ∀ (rs : List AzureResource) (acc : Dict Nat),
      dGetD (rs.foldl
        (fun d r =>
          match r.group with
          | none => d
          | some g => dUpd d g 0 (fun n => n + 1)) acc) gid 0 =
      dGetD acc gid 0 + (rs.filter (fun r => r.group = some gid)).length := by
  intro rs
  induction rs with
  | nil => intro acc; simp
  | cons r rest ih =>
      intro acc
      rw [List.foldl_cons]
      cases hg : r.group with
      | none =>
          rw [ih]
          simp [hg]
      | some g =>
          by_cases hgid : g = gid
          · subst hgid
            rw [ih]
            have : dGetD (dUpd acc g 0 (fun n => n + 1)) g 0 = dGetD acc g 0 + 1 := by
              unfold dGetD
              rw [dGet?_dUpd_self]
              rfl
            rw [this]
            simp [hg]
            omega
          · rw [ih]
            have : dGetD (dUpd acc g 0 (fun n => n + 1)) gid 0 = dGetD acc gid 0 := by
              unfold dGetD
              rw [dGet?_dUpd_ne _ _ _ _ _ (fun hh => hgid hh.symm)]
            rw [this]
            have hne : ¬(r.group = some gid) := by
              rw [hg]
              intro hh
              exact hgid (Option.some.injEq _ _ ▸ hh)
            simp [hne]

theorem group_sum_get (layers : Dict Nat) (gid : String) :
    ∀ (rs : List AzureResource) (acc : Dict ℚ),
      dGetD (rs.foldl
        (fun d r =>
          match r.group with
          | none => d
          | some g => dUpd d g 0 (fun q => q + ((dGetD layers r.id 0 : ℕ) : ℚ))) acc) gid 0 =
      dGetD acc gid 0 +
        ((rs.filter (fun r => r.group = some gid)).map
          (fun r => ((dGetD layers r.id 0 : ℕ) : ℚ))).sum := by
  intro rs
  induction rs with
  | nil => intro acc; simp
  | cons r rest ih =>
      intro acc
      rw [List.foldl_cons]
      cases hg : r.group with
      | none =>
          rw [ih]
          simp [hg]
      | some g =>
          by_cases hgid : g = gid
          · subst hgid
            rw [ih]
            have : dGetD (dUpd acc g 0 (fun q => q + ((dGetD layers r.id 0 : ℕ) : ℚ))) g 0 =
                dGetD acc g 0 + ((dGetD layers r.id 0 : ℕ) : ℚ) := by
              unfold dGetD
              rw [dGet?_dUpd_self]
              rfl
            rw [this]
            simp [hg]
            ring
          · rw [ih]
            have : dGetD (dUpd acc g 0 (fun q => q + ((dGetD layers r.id 0 : ℕ) : ℚ))) gid 0 =
                dGetD acc gid 0 := by
              unfold dGetD
              rw [dGet?_dUpd_ne _ _ _ _ _ (fun hh => hgid hh.symm)]
            rw [this]
            have hne : ¬(r.group = some gid) := by
              rw [hg]
              intro hh
              exact hgid (Option.some.injEq _ _ ▸ hh)
            simp [hne]

theorem avg_fold_get (val : String → ℚ) (gid : String) :
    ∀ (gs : List ResourceGroup) (acc : Dict ℚ),
      dGet? (gs.foldl (fun d group => dSet d group.id (val group.id)) acc) gid =
        if gs.any (fun g => g.id = gid) then some (val gid) else dGet? acc gid := by
  intro gs
  induction gs with
  | nil => intro acc; simp
  | cons g rest ih =>
      intro acc
      rw [List.foldl_cons, ih]
      by_cases hgid : g.id = gid
      · by_cases hrest : rest.any (fun g => g.id = gid)
        · simp [List.any_cons, hgid, hrest]
        · subst hgid
          simp [List.any_cons, hrest, dGet?_dSet_self]
      · by_cases hrest : rest.any (fun g => g.id = gid)
        · simp [List.any_cons, hgid, hrest]
        · simp [List.any_cons, hgid, hrest,
            dGet?_dSet_ne _ _ _ _ (fun hh => hgid hh.symm)]

theorem groupCountOf_get (resources : List AzureResource) (gid : String) :
    dGetD (group_resource_countOf resources) gid 0 =
      (resources.filter (fun r => r.group = some gid)).length := by
  unfold group_resource_countOf
  rw [group_count_get gid resources []]
  simp [dGetD, dGet?]

theorem groupSumOf_get (layers : Dict Nat) (resources : List AzureResource) (gid : String) :
    dGetD (group_layer_sumOf layers resources) gid 0 =
      ((resources.filter (fun r => r.group = some gid)).map
        (fun r => ((dGetD layers r.id 0 : ℕ) : ℚ))).sum := by
  unfold group_layer_sumOf
  rw [group_sum_get layers gid resources []]
  simp [dGetD, dGet?]

theorem groupAvgVal_eq_meanLayer (layers : Dict Nat) (resources : List AzureResource)
    (g : ResourceGroup) :
    groupAvgVal layers resources g.id = meanLayer layers resources g := by
  unfold groupAvgVal meanLayer
  rw [groupCountOf_get, groupSumOf_get]
  by_cases hz : (resources.filter (fun r => r.group = some g.id)).length = 0
  · simp [hz]
  · have hp : 0 < (resources.filter (fun r => r.group = some g.id)).length := by omega
    simp [hz, hp]

theorem avg_layerOf_get (layers : Dict Nat) (groups : List ResourceGroup)
    (resources : List AzureResource) (g : ResourceGroup) (hg : g ∈ groups) :
    dGetD (group_avg_layerOf layers groups resources) g.id 0 =
      meanLayer layers resources g := by
  unfold group_avg_layerOf dGetD
  rw [avg_fold_get (groupAvgVal layers resources) g.id groups []]
  have hany : groups.any (fun g2 => g2.id = g.id) = true :=
    List.any_eq_true.mpr ⟨g, hg, by simp⟩
  rw [if_pos hany]
  simp [groupAvgVal_eq_meanLayer]

theorem bfs_no_outgoing : ∀ (fuel : Nat) (ids : List String) (layers : Dict Nat)
    (queue : List String) (final : Dict Nat),
    bfsLoop [] ids fuel layers queue = some final → final = layers := by
  intro fuel
  induction fuel with
  | zero =>
      intro ids layers queue final h
      cases h
  | succ f ih =>
      intro ids layers queue final h
      cases queue with
      | nil =>
          cases h
          rfl
      | cons node rest =>
          have hred : bfsLoop [] ids (f + 1) layers (node :: rest) =
              bfsLoop [] ids f layers (rest ++ []) := rfl
          rw [hred] at h
          exact ih ids layers (rest ++ []) final h

theorem cleanup_values (resources : List AzureResource) :
    ∀ (d : Dict Nat) (k : String) (l : Nat),
      dGet? (resources.foldl (fun d r => dEnsure d r.id 0) d) k = some l →
      dGet? d k = some l ∨ l = 0 := by
  induction resources with
  | nil =>
      intro d k l h
      exact Or.inl (by simpa using h)
  | cons r rest ih =>
      intro d k l h
      rw [List.foldl_cons] at h
      rcases ih (dEnsure d r.id 0) k l h with h2 | h2
      · by_cases hk : k = r.id
        · rw [hk] at h2 ⊢
          rw [dGet?_dEnsure_self] at h2
          have hval : dGetD d r.id 0 = l := by
            exact Option.some.injEq _ _ ▸ h2
          cases hget : dGet? d r.id with
          | none =>
              right
              unfold dGetD at hval
              rw [hget] at hval
              simpa using hval.symm
          | some v =>
              left
              unfold dGetD at hval
              rw [hget] at hval
              simp at hval
              rw [hval]
        · rw [dGet?_dEnsure_ne _ _ _ _ hk] at h2
          exact Or.inl h2
      · exact Or.inr h2

theorem assign_empty_zero (fuel : Nat) (resources : List AzureResource)
    (layers : Dict Nat) (h : assign_layersF fuel resources [] = some layers) :
    ∀ k l, dGet? layers k = some l → l = 0 := by
  rw [assign_layersF_eq] at h
  have hbuild : build_adjacency_graph ([] : List Connection) = ⟨[], [], [], []⟩ := rfl
  rw [hbuild] at h
  intro k l hk
  revert h
  cases hb : bfsLoop [] (resources.map (fun r => r.id)) fuel
      ((sourcesOf resources [] (resources.map (fun r => r.id))).foldl
        (fun d s => dSet d s 0) [])
      (sourcesOf resources [] (resources.map (fun r => r.id))) with
  | none => intro h; cases h
  | some mid =>
      intro h
      have hmid := bfs_no_outgoing fuel _ _ _ mid hb
      subst hmid
      have hlayers : layers = resources.foldl (fun d r => dEnsure d r.id 0)
          ((sourcesOf resources [] (resources.map (fun r => r.id))).foldl
            (fun d s => dSet d s 0) []) := by
        cases h
        rfl
      rw [hlayers] at hk
      rcases cleanup_values resources _ k l hk with h2 | h2
      · rw [fold_dSet0_get] at h2
        by_cases hmem : k ∈ sourcesOf resources [] (resources.map (fun r => r.id))
        · rw [if_pos hmem] at h2
          cases h2
          rfl
        · rw [if_neg hmem] at h2
          cases h2
      · exact h2

theorem meanLayer_zero (layers : Dict Nat) (resources : List AzureResource)
    (g : ResourceGroup) (hz : ∀ k l, dGet? layers k = some l → l = 0) :
    meanLayer layers resources g = 0 := by
  unfold meanLayer
  by_cases hlen : (resources.filter (fun r => r.group = some g.id)).length = 0
  · simp [hlen]
  · rw [if_neg hlen]
    have hsum : ((resources.filter (fun r => r.group = some g.id)).map
        (fun r => ((dGetD layers r.id 0 : ℕ) : ℚ))).sum = 0 := by
      apply List.sum_eq_zero
      intro x hx
      obtain ⟨r, _, hr⟩ := List.mem_map.mp hx
      have : dGetD layers r.id 0 = 0 := by
        unfold dGetD
        cases hg : dGet? layers r.id with
        | none => rfl
        | some v => simpa using hz r.id v hg
      rw [← hr, this]
      simp
    rw [hsum]
    simp

/-- C6: `optimize_group_order` leaves the groups untouched on an empty
connection list, and otherwise (whenever its `assign_layers` call returns)
returns a permutation of the input groups sorted ascending by the mean layer
value of each group's member resources (zero-member groups counting as mean
0). -/
theorem C6_optimize_group_order (fuel : Nat) (groups : List ResourceGroup)
    (resources : List AzureResource) (connections : List Connection) :
    (connections = [] →
      optimize_group_orderF fuel groups resources connections = some groups) ∧
    (∀ layers, assign_layersF fuel resources connections = some layers →
      ∃ out, optimize_group_orderF fuel groups resources connections = some out ∧
        out.Perm groups ∧
        out.Pairwise (fun g1 g2 =>
          meanLayer layers resources g1 ≤ meanLayer layers resources g2)) := by
  constructor
  · intro hc
    unfold optimize_group_orderF
    rw [if_pos (Or.inr hc)]
  · intro layers hassign
    by_cases hge : groups = [] ∨ connections = []
    · refine ⟨groups, ?_, List.Perm.refl _, ?_⟩
      · unfold optimize_group_orderF
        rw [if_pos hge]
      · rcases hge with hge | hge
        · subst hge
          exact List.Pairwise.nil
        · subst hge
          have hz := assign_empty_zero fuel resources layers hassign
          apply List.pairwise_of_forall
          intro a b
          rw [meanLayer_zero layers resources a hz, meanLayer_zero layers resources b hz]
    · refine ⟨groups.mergeSort (fun g1 g2 =>
        decide (dGetD (group_avg_layerOf layers groups resources) g1.id 0 ≤
          dGetD (group_avg_layerOf layers groups resources) g2.id 0)), ?_, ?_, ?_⟩
      · unfold optimize_group_orderF
        rw [if_neg hge, hassign]
      · exact List.mergeSort_perm _ _
      · have hsorted := @List.sorted_mergeSort ResourceGroup
          (fun g1 g2 =>
            decide (dGetD (group_avg_layerOf layers groups resources) g1.id 0 ≤
              dGetD (group_avg_layerOf layers groups resources) g2.id 0))
          (fun a b c hab hbc => by
            simp only [decide_eq_true_eq] at *
            exact le_trans hab hbc)
          (fun a b => by
            simp only [Bool.or_eq_true, decide_eq_true_eq]
            exact le_total _ _)
          groups
        refine List.Pairwise.imp_of_mem ?_ hsorted
        intro a b ha hb hab
        have hperm2 := List.mergeSort_perm groups (fun g1 g2 =>
          decide (dGetD (group_avg_layerOf layers groups resources) g1.id 0 ≤
            dGetD (group_avg_layerOf layers groups resources) g2.id 0))
        rw [← avg_layerOf_get layers groups resources a (hperm2.mem_iff.mp ha),
          ← avg_layerOf_get layers groups resources b (hperm2.mem_iff.mp hb)]
        simpa using hab

/-- Groups of the C6 witness instance (sink group listed first). -/
def cwGroups : List ResourceGroup := [{ id := "B" }, { id := "A" }]

/-- Resources of the C6 witness instance. -/
def cwResources : List AzureResource :=
  [{ id := "r1", group := some "B" }, { id := "r2", group := some "A" }]

/-- Connections of the C6 witness instance (`r2 → r1`). -/
def cwConnections : List Connection := [{ source := "r2", target := "r1" }]

/-- C6 witness: with `r2 → r1` the theorem's sorted-permutation conclusion is
instantiated, and with no connections the original order is kept. -/
theorem C6_optimize_group_order_witness :
    optimize_group_orderF 3 cwGroups cwResources [] = some cwGroups ∧
      (∃ out, optimize_group_orderF 3 cwGroups cwResources cwConnections = some out ∧
        out.Perm cwGroups ∧
        out.Pairwise (fun g1 g2 =>
          meanLayer [("r2", 0), ("r1", 1)] cwResources g1 ≤
            meanLayer [("r2", 0), ("r1", 1)] cwResources g2)) :=
  ⟨(C6_optimize_group_order 3 cwGroups cwResources []).1 rfl,
    (C6_optimize_group_order 3 cwGroups cwResources cwConnections).2
      [("r2", 0), ("r1", 1)] (by decide)⟩

/-! ## Topology layout and grid placement (`calculate_topology_layout`,
`_calculate_layout`) -/

/-- Lexicographic Bool comparison of the (hub-first, layer, -connectivity)
sort keys. -/
def triLE (a b : Nat × Nat × Int) : Bool :=
  a.1 < b.1 || (a.1 = b.1 && (a.2.1 < b.2.1 || (a.2.1 = b.2.1 && a.2.2 ≤ b.2.2)))

/-- The per-resource sort key of `calculate_topology_layout`: hubs first,
then by layer, then by descending connectivity. -/
def topoSortKey (hubs layers : Dict Nat) (outgoing incoming : Dict (List String))
    (r : AzureResource) : Nat × Nat × Int :=
  (if dMem hubs r.id then 0 else 1, dGetD layers r.id 0,
    -((calculate_connectivity_score r.id outgoing incoming : ℕ) : Int))

/-- Stable sort of a group's resources by the topology key. -/
def sortGroupRes (hubs layers : Dict Nat) (outgoing incoming : Dict (List String))
    (l : List AzureResource) : List AzureResource :=
  l.mergeSort (fun a b =>
    triLE (topoSortKey hubs layers outgoing incoming a)
      (topoSortKey hubs layers outgoing incoming b))

/-- Result record of `calculate_topology_layout`; the `None` key of the
Python `group_resources` dict is carried separately as
`ungrouped_resources`. -/
structure TopoResult where
  ordered_groups : List ResourceGroup
  group_resources : Dict (List AzureResource)
  ungrouped_resources : Option (List AzureResource)
  hubs : Dict Nat

/-- `calculate_topology_layout` from `topology_layout.py`, with the fuel of
its (two) `assign_layers` calls. -/
def calculate_topology_layoutF (fuel : Nat) (resources : List AzureResource)
    (groups : List ResourceGroup) (connections : List Connection) :
    Option TopoResult :=
  let g := build_adjacency_graph connections
  match assign_layersF fuel resources connections with
  | none => none
  | some layers =>
      let hubs := detect_hubs resources connections HUB_CONNECTIVITY_THRESHOLD
      match optimize_group_orderF fuel groups resources connections with
      | none => none
      | some ordered_groups =>
          let group_resources := ordered_groups.foldl
            (fun d group =>
              let group_res := resources.filter (fun r => r.group = some group.id)
              if group_res ≠ [] then
                dSet d group.id (sortGroupRes hubs layers g.outgoing g.incoming group_res)
              else d) []
          let ungrouped := resources.filter (fun r => r.group = none)
          some
            { ordered_groups := ordered_groups,
              group_resources := group_resources,
              ungrouped_resources :=
                if ungrouped ≠ [] then
                  some (sortGroupRes hubs layers g.outgoing g.incoming ungrouped)
                else none,
              hubs := hubs }

/-- Layout constants from `drawio_generator.py` (A4 landscape at 96 DPI). -/
def A4_WIDTH : Int := 1123

/-- Page margin constant. -/
def PAGE_MARGIN : Int := 40

/-- Usable canvas width within A4. -/
def CANVAS_WIDTH : Int := A4_WIDTH - PAGE_MARGIN * 2

/-- Width of one icon cell. -/
def ICON_CELL_WIDTH : Int := 110

/-- Height of one icon cell. -/
def ICON_CELL_HEIGHT : Int := 85

/-- Padding inside groups. -/
def GROUP_INTERNAL_PAD : Int := 25

/-- Height of the group title bar. -/
def GROUP_TITLE_HEIGHT : Int := 24

/-- Gap between groups. -/
def GROUP_GAP : Int := 30

/-- Starting x coordinate. -/
def START_X : Int := PAGE_MARGIN

/-- Starting y coordinate. -/
def START_Y : Int := PAGE_MARGIN

/-- Mutable state of `_calculate_layout`. -/
structure LayoutState where
  positions : Dict (Int × Int)
  group_bounds : Dict (Int × Int × Int × Int)
  current_x : Int
  current_y : Int
  row_max_height : Int

/-- One ungrouped-resource step of `_calculate_layout`: explicit `(x, y)`
taken verbatim, otherwise the cursor cell is used (wrapping the row when the
cell would cross the canvas width). -/
def ungStep (st : LayoutState) (r : AzureResource) : LayoutState :=
  match r.x, r.y with
  | some x, some y => { st with positions := dSet st.positions r.id (x, y) }
  | _, _ =>
      let st :=
        if st.current_x + ICON_CELL_WIDTH > CANVAS_WIDTH + PAGE_MARGIN then
          { st with current_x := START_X,
                    current_y := st.current_y + ICON_CELL_HEIGHT }
        else st
      { st with
          positions := dSet st.positions r.id (st.current_x, st.current_y),
          current_x := st.current_x + ICON_CELL_WIDTH,
          row_max_height := max st.row_max_height ICON_CELL_HEIGHT }

/-- The ungrouped-resources phase of `_calculate_layout`: inline placement
left to right with row wrapping, then a cursor reset to a new row. -/
def placeUngrouped (ungrouped_resources : List AzureResource)
    (st : LayoutState) : LayoutState :=
  if ungrouped_resources = [] then st
  else
    let st2 := ungrouped_resources.foldl ungStep st
    { st2 with current_x := START_X,
               current_y := st2.current_y + st2.row_max_height + GROUP_GAP,
               row_max_height := 0 }

/-- One grid-cell step inside a group: explicit `(x, y)` taken verbatim,
otherwise the cell at the enumerated index, relative to the group origin. -/
def grpStep (cols : Nat) (st : LayoutState) (p : Nat × AzureResource) : LayoutState :=
  match p.2.x, p.2.y with
  | some x, some y =>
      { st with positions := dSet st.positions p.2.id (x, y) }
  | _, _ =>
      let col : Nat := p.1 % cols
      let row : Nat := p.1 / cols
      let rel_x : Int := GROUP_INTERNAL_PAD + (col : Int) * ICON_CELL_WIDTH
      let rel_y : Int := GROUP_TITLE_HEIGHT + GROUP_INTERNAL_PAD +
        (row : Int) * ICON_CELL_HEIGHT
      { st with positions := dSet st.positions p.2.id (rel_x, rel_y) }

/-- One group iteration of `_calculate_layout`: size the group's grid, wrap
to a new row if needed, place the members on the grid relative to the group
origin, store the bounds and advance the cursor. -/
def placeGroup (resolve : String → List AzureResource) (st : LayoutState)
    (group : ResourceGroup) : LayoutState :=
  let grp_resources := resolve group.id
  if grp_resources = [] then st
  else
    let num_resources := grp_resources.length
    let cols : Nat := min 3 num_resources
    let rows : Nat := (num_resources + cols - 1) / cols
    let content_width : Int := (cols : Int) * ICON_CELL_WIDTH
    let content_height : Int := (rows : Int) * ICON_CELL_HEIGHT
    let group_width := GROUP_INTERNAL_PAD * 2 + content_width
    let group_height := GROUP_TITLE_HEIGHT + GROUP_INTERNAL_PAD * 2 + content_height
    let st :=
      if st.current_x + group_width > CANVAS_WIDTH + PAGE_MARGIN then
        { st with current_x := START_X,
                  current_y := st.current_y + st.row_max_height + GROUP_GAP,
                  row_max_height := 0 }
      else st
    let st := grp_resources.enum.foldl (grpStep cols) st
    let st :=
      { st with
          group_bounds := dSet st.group_bounds group.id
            (st.current_x, st.current_y, group_width, group_height),
          row_max_height := max st.row_max_height group_height }
    { st with current_x := st.current_x + group_width + GROUP_GAP }

/-- The group lists, resolved group lookup and ungrouped list that
`_calculate_layout` iterates over, including the Python
`group_resources.get(key, grouped.get(key, []))` fallbacks. -/
def layoutInputs (fuel : Nat) (resources : List AzureResource)
    (groups : List ResourceGroup) (connections : List Connection) :
    Option (List ResourceGroup × (String → List AzureResource) × List AzureResource) :=
  if connections ≠ [] then
    (calculate_topology_layoutF fuel resources groups connections).map
      (fun topo =>
        (topo.ordered_groups,
          fun gid => dGetD topo.group_resources gid
            (resources.filter (fun r => r.group = some gid)),
          match topo.ungrouped_resources with
          | some l => l
          | none => resources.filter (fun r => r.group = none)))
  else
    some (groups,
      fun gid => resources.filter (fun r => r.group = some gid),
      resources.filter (fun r => r.group = none))

/-- `_calculate_layout` from `drawio_generator.py`, with the fuel of the
topology computation. -/
def _calculate_layoutF (fuel : Nat) (resources : List AzureResource)
    (groups : List ResourceGroup) (connections : List Connection) :
    Option (Dict (Int × Int) × Dict (Int × Int × Int × Int)) :=
  match layoutInputs fuel resources groups connections with
  | none => none
  | some (ordered_groups, resolve, ungrouped_resources) =>
      let st0 : LayoutState := ⟨[], [], START_X, START_Y, 0⟩
      let st1 := placeUngrouped ungrouped_resources st0
      let st2 := ordered_groups.foldl (placeGroup resolve) st1
      some (st2.positions, st2.group_bounds)

theorem dMem_dSet (d : Dict α) (k k2 : String) (v : α) :
    dMem (dSet d k v) k2 = (k2 = k || dMem d k2) := by
  unfold dSet
  exact dMem_dUpd _ _ _ _ _

theorem mem_of_mem_enumFrom {α : Type} (l : List α) :
    ∀ (n : Nat) (p : Nat × α), p ∈ List.enumFrom n l → p.2 ∈ l := by
  induction l with
  | nil => intro n p hp; simp at hp
  | cons x rest ih =>
      intro n p hp
      rw [List.enumFrom_cons] at hp
      rcases List.mem_cons.mp hp with hp | hp
      · subst hp
        exact List.mem_cons_self x rest
      · exact List.mem_cons_of_mem x (ih (n + 1) p hp)

theorem optimize_group_orderF_perm (fuel : Nat) (groups : List ResourceGroup)
    (resources : List AzureResource) (connections : List Connection)
    (out : List ResourceGroup)
    (h : optimize_group_orderF fuel groups resources connections = some out) :
    out.Perm groups := by
  unfold optimize_group_orderF at h
  by_cases hge : groups = [] ∨ connections = []
  · rw [if_pos hge] at h
    cases h
    exact List.Perm.refl _
  · rw [if_neg hge] at h
    cases ha : assign_layersF fuel resources connections with
    | none => rw [ha] at h; cases h
    | some layers =>
        rw [ha] at h
        have hout : out = groups.mergeSort (fun g1 g2 =>
            decide (dGetD (group_avg_layerOf layers groups resources) g1.id 0 ≤
              dGetD (group_avg_layerOf layers groups resources) g2.id 0)) := by
          cases h
          rfl
        rw [hout]
        exact List.mergeSort_perm _ _

theorem topo_fold_group_resources (resources : List AzureResource)
    (hubs layers : Dict Nat) (outgoing incoming : Dict (List String)) :
    ∀ (gs : List ResourceGroup) (acc : Dict (List AzureResource))
      (gid : String) (l : List AzureResource),
      dGet? (gs.foldl
        (fun d group =>
          let group_res := resources.filter (fun r => r.group = some group.id)
          if group_res ≠ [] then
            dSet d group.id (sortGroupRes hubs layers outgoing incoming group_res)
          else d) acc) gid = some l →
      dGet? acc gid = some l ∨
        ∃ g ∈ gs, g.id = gid ∧
          l = sortGroupRes hubs layers outgoing incoming
            (resources.filter (fun r => r.group = some gid)) := by
  intro gs
  induction gs with
  | nil =>
      intro acc gid l h
      exact Or.inl h
  | cons g rest ih =>
      intro acc gid l h
      rw [List.foldl_cons] at h
      rcases ih _ gid l h with h2 | h2
      · simp only at h2
        by_cases hne : resources.filter (fun r => r.group = some g.id) ≠ []
        · rw [if_pos hne] at h2
          by_cases hgid : gid = g.id
          · rw [hgid, dGet?_dSet_self] at h2
            right
            refine ⟨g, List.mem_cons_self g rest, hgid.symm, ?_⟩
            rw [hgid]
            exact (Option.some.injEq _ _ ▸ h2).symm
          · rw [dGet?_dSet_ne _ _ _ _ hgid] at h2
            exact Or.inl h2
        · rw [if_neg hne] at h2
          exact Or.inl h2
      · obtain ⟨g2, hg2, hid, hl⟩ := h2
        exact Or.inr ⟨g2, List.mem_cons_of_mem g hg2, hid, hl⟩

theorem sortGroupRes_perm (hubs layers : Dict Nat)
    (outgoing incoming : Dict (List String)) (l : List AzureResource) :
    (sortGroupRes hubs layers outgoing incoming l).Perm l := by
  unfold sortGroupRes
  exact List.mergeSort_perm _ _

theorem calculate_topology_layoutF_eq (fuel : Nat) (resources : List AzureResource)
    (groups : List ResourceGroup) (connections : List Connection)
    (layers : Dict Nat) (ordered_groups : List ResourceGroup)
    (ha : assign_layersF fuel resources connections = some layers)
    (ho : optimize_group_orderF fuel groups resources connections = some ordered_groups) :
    calculate_topology_layoutF fuel resources groups connections = some
      { ordered_groups := ordered_groups,
        group_resources := ordered_groups.foldl
          (fun d group =>
            let group_res := resources.filter (fun r => r.group = some group.id)
            if group_res ≠ [] then
              dSet d group.id (sortGroupRes
                (detect_hubs resources connections HUB_CONNECTIVITY_THRESHOLD) layers
                (build_adjacency_graph connections).outgoing
                (build_adjacency_graph connections).incoming group_res)
            else d) [],
        ungrouped_resources :=
          if resources.filter (fun r => r.group = none) ≠ [] then
            some (sortGroupRes
              (detect_hubs resources connections HUB_CONNECTIVITY_THRESHOLD) layers
              (build_adjacency_graph connections).outgoing
              (build_adjacency_graph connections).incoming
              (resources.filter (fun r => r.group = none)))
          else none,
        hubs := detect_hubs resources connections HUB_CONNECTIVITY_THRESHOLD } := by
  simp only [calculate_topology_layoutF]
  rw [ha, ho]

theorem ungStep_positions (st : LayoutState) (r : AzureResource) (k : String) :
    dMem (ungStep st r).positions k = (k = r.id || dMem st.positions k) := by
  unfold ungStep
  cases hx : r.x with
  | some x =>
      cases hy : r.y with
      | some y => exact dMem_dSet _ _ _ _
      | none =>
          by_cases hc : st.current_x + ICON_CELL_WIDTH > CANVAS_WIDTH + PAGE_MARGIN <;>
            simp [hc, dMem_dSet]
  | none =>
      by_cases hc : st.current_x + ICON_CELL_WIDTH > CANVAS_WIDTH + PAGE_MARGIN <;>
        simp [hc, dMem_dSet]

theorem ungroupedFold_keys : ∀ (l : List AzureResource) (st : LayoutState) (k : String),
    dMem (l.foldl ungStep st).positions k = true →
    dMem st.positions k = true ∨ ∃ x ∈ l, x.id = k := by
  intro l
  induction l with
  | nil => intro st k h; exact Or.inl h
  | cons x rest ih =>
      intro st k h
      rw [List.foldl_cons] at h
      rcases ih (ungStep st x) k h with h2 | h2
      · rw [ungStep_positions] at h2
        rcases Bool.or_eq_true_iff.mp h2 with h3 | h3
        · exact Or.inr ⟨x, List.mem_cons_self x rest, (of_decide_eq_true h3).symm⟩
        · exact Or.inl h3
      · obtain ⟨y, hy, hid⟩ := h2
        exact Or.inr ⟨y, List.mem_cons_of_mem x hy, hid⟩

theorem placeUngrouped_keys (l : List AzureResource) (st : LayoutState) (k : String)
    (h : dMem (placeUngrouped l st).positions k = true) :
    dMem st.positions k = true ∨ ∃ x ∈ l, x.id = k := by
  unfold placeUngrouped at h
  by_cases hl : l = []
  · rw [if_pos hl] at h
    exact Or.inl h
  · rw [if_neg hl] at h
    exact ungroupedFold_keys l st k h

theorem grpStep_positions (cols : Nat) (st : LayoutState) (p : Nat × AzureResource)
    (k : String) :
    dMem (grpStep cols st p).positions k = (k = p.2.id || dMem st.positions k) := by
  unfold grpStep
  cases hx : p.2.x with
  | some x =>
      cases hy : p.2.y with
      | some y => exact dMem_dSet _ _ _ _
      | none => simp [dMem_dSet]
  | none => simp [dMem_dSet]

theorem grpFold_keys (cols : Nat) :
    ∀ (l : List (Nat × AzureResource)) (st : LayoutState) (k : String),
    dMem (l.foldl (grpStep cols) st).positions k = true →
    dMem st.positions k = true ∨ ∃ p ∈ l, p.2.id = k := by
  intro l
  induction l with
  | nil => intro st k h; exact Or.inl h
  | cons x rest ih =>
      intro st k h
      rw [List.foldl_cons] at h
      rcases ih (grpStep cols st x) k h with h2 | h2
      · rw [grpStep_positions] at h2
        rcases Bool.or_eq_true_iff.mp h2 with h3 | h3
        · exact Or.inr ⟨x, List.mem_cons_self x rest, (of_decide_eq_true h3).symm⟩
        · exact Or.inl h3
      · obtain ⟨y, hy, hid⟩ := h2
        exact Or.inr ⟨y, List.mem_cons_of_mem x hy, hid⟩

theorem placeGroup_keys (resolve : String → List AzureResource) (st : LayoutState)
    (group : ResourceGroup) (k : String)
    (h : dMem (placeGroup resolve st group).positions k = true) :
    dMem st.positions k = true ∨ ∃ x ∈ resolve group.id, x.id = k := by
  unfold placeGroup at h
  by_cases hl : resolve group.id = []
  · rw [if_pos hl] at h
    exact Or.inl h
  · rw [if_neg hl] at h
    simp only at h
    by_cases hc : st.current_x + (GROUP_INTERNAL_PAD * 2 +
        (((min 3 (resolve group.id).length : Nat) : Int) * ICON_CELL_WIDTH)) >
        CANVAS_WIDTH + PAGE_MARGIN
    · rw [if_pos hc] at h
      rcases grpFold_keys _ _ _ k h with h2 | h2
      · exact Or.inl (by simpa using h2)
      · obtain ⟨p, hp, hid⟩ := h2
        refine Or.inr ⟨p.2, ?_, hid⟩
        have : (resolve group.id).enum = List.enumFrom 0 (resolve group.id) := rfl
        rw [this] at hp
        exact mem_of_mem_enumFrom _ 0 p hp
    · rw [if_neg hc] at h
      rcases grpFold_keys _ _ _ k h with h2 | h2
      · exact Or.inl h2
      · obtain ⟨p, hp, hid⟩ := h2
        refine Or.inr ⟨p.2, ?_, hid⟩
        have : (resolve group.id).enum = List.enumFrom 0 (resolve group.id) := rfl
        rw [this] at hp
        exact mem_of_mem_enumFrom _ 0 p hp

theorem groupsFold_keys (resolve : String → List AzureResource) :
    ∀ (gs : List ResourceGroup) (st : LayoutState) (k : String),
    dMem (gs.foldl (placeGroup resolve) st).positions k = true →
    dMem st.positions k = true ∨ ∃ g ∈ gs, ∃ x ∈ resolve g.id, x.id = k := by
  intro gs
  induction gs with
  | nil => intro st k h; exact Or.inl h
  | cons g rest ih =>
      intro st k h
      rw [List.foldl_cons] at h
      rcases ih (placeGroup resolve st g) k h with h2 | h2
      · rcases placeGroup_keys resolve st g k h2 with h3 | h3
        · exact Or.inl h3
        · obtain ⟨x, hx, hid⟩ := h3
          exact Or.inr ⟨g, List.mem_cons_self g rest, x, hx, hid⟩
      · obtain ⟨g2, hg2, x, hx, hid⟩ := h2
        exact Or.inr ⟨g2, List.mem_cons_of_mem g hg2, x, hx, hid⟩

theorem calculate_topology_layoutF_inv (fuel : Nat) (resources : List AzureResource)
    (groups : List ResourceGroup) (connections : List Connection) (topo : TopoResult)
    (h : calculate_topology_layoutF fuel resources groups connections = some topo) :
    ∃ layers ordered_groups,
      assign_layersF fuel resources connections = some layers ∧
      optimize_group_orderF fuel groups resources connections = some ordered_groups ∧
      topo =
        { ordered_groups := ordered_groups,
          group_resources := ordered_groups.foldl
            (fun d group =>
              let group_res := resources.filter (fun r => r.group = some group.id)
              if group_res ≠ [] then
                dSet d group.id (sortGroupRes
                  (detect_hubs resources connections HUB_CONNECTIVITY_THRESHOLD) layers
                  (build_adjacency_graph connections).outgoing
                  (build_adjacency_graph connections).incoming group_res)
              else d) [],
          ungrouped_resources :=
            if resources.filter (fun r => r.group = none) ≠ [] then
              some (sortGroupRes
                (detect_hubs resources connections HUB_CONNECTIVITY_THRESHOLD) layers
                (build_adjacency_graph connections).outgoing
                (build_adjacency_graph connections).incoming
                (resources.filter (fun r => r.group = none)))
            else none,
          hubs := detect_hubs resources connections HUB_CONNECTIVITY_THRESHOLD } := by
  cases ha : assign_layersF fuel resources connections with
  | none =>
      simp only [calculate_topology_layoutF] at h
      rw [ha] at h
      cases h
  | some layers =>
      cases ho : optimize_group_orderF fuel groups resources connections with
      | none =>
          simp only [calculate_topology_layoutF] at h
          rw [ha, ho] at h
          cases h
      | some ordered_groups =>
          refine ⟨layers, ordered_groups, rfl, rfl, ?_⟩
          rw [calculate_topology_layoutF_eq fuel resources groups connections layers
            ordered_groups ha ho] at h
          exact (Option.some.injEq _ _ ▸ h).symm

theorem _calculate_layoutF_inv (fuel : Nat) (resources : List AzureResource)
    (groups : List ResourceGroup) (connections : List Connection)
    (pos : Dict (Int × Int)) (bounds : Dict (Int × Int × Int × Int))
    (h : _calculate_layoutF fuel resources groups connections = some (pos, bounds)) :
    ∃ og resolve ung,
      layoutInputs fuel resources groups connections = some (og, resolve, ung) ∧
      pos = (og.foldl (placeGroup resolve)
        (placeUngrouped ung ⟨[], [], START_X, START_Y, 0⟩)).positions := by
  cases hli : layoutInputs fuel resources groups connections with
  | none =>
      simp only [_calculate_layoutF] at h
      rw [hli] at h
      cases h
  | some trip =>
      obtain ⟨og, resolve, ung⟩ := trip
      refine ⟨og, resolve, ung, rfl, ?_⟩
      simp only [_calculate_layoutF] at h
      rw [hli] at h
      have := Option.some.injEq _ _ ▸ h
      exact (congrArg Prod.fst this).symm

/-- C10: a resource whose `group` field names an id absent from the groups
list appears in none of the per-group resource lists of
`calculate_topology_layout` (neither under a group key nor under the
ungrouped key), and the grid placement gives it no position entry. -/
theorem C10_ghost_group_excluded (fuel : Nat) (resources : List AzureResource)
    (groups : List ResourceGroup) (connections : List Connection)
    (r : AzureResource) (gid : String)
    (hr : r ∈ resources) (hg : r.group = some gid)
    (hghost : ∀ g ∈ groups, g.id ≠ gid)
    (huniq : ∀ r2 ∈ resources, r2.id = r.id → r2 = r) :
    (∀ topo, calculate_topology_layoutF fuel resources groups connections = some topo →
      (∀ gid2 l, dGet? topo.group_resources gid2 = some l → r ∉ l) ∧
      (∀ l, topo.ungrouped_resources = some l → r ∉ l)) ∧
    (∀ pos bounds,
      _calculate_layoutF fuel resources groups connections = some (pos, bounds) →
      dMem pos r.id = false) := by
  constructor
  · intro topo htopo
    obtain ⟨layers, og, ha, ho, htopoeq⟩ :=
      calculate_topology_layoutF_inv fuel resources groups connections topo htopo
    have hogperm := optimize_group_orderF_perm fuel groups resources connections og ho
    constructor
    · intro gid2 l hget hrl
      rw [htopoeq] at hget
      simp only at hget
      rcases topo_fold_group_resources resources
          (detect_hubs resources connections HUB_CONNECTIVITY_THRESHOLD) layers
          (build_adjacency_graph connections).outgoing
          (build_adjacency_graph connections).incoming og [] gid2 l hget with h0 | h0
      · simp [dGet?] at h0
      · obtain ⟨g2, hg2, hgid2, hl⟩ := h0
        rw [hl] at hrl
        have hrf : r ∈ resources.filter (fun r => r.group = some gid2) :=
          (sortGroupRes_perm _ _ _ _ _).mem_iff.mp hrl
        have hgg : r.group = some gid2 := of_decide_eq_true (List.mem_filter.mp hrf).2
        rw [hg] at hgg
        have hgidgid2 : gid = gid2 := Option.some.inj hgg
        exact hghost g2 (hogperm.mem_iff.mp hg2) (by rw [hgid2, ← hgidgid2])
    · intro l hul hrl
      rw [htopoeq] at hul
      simp only at hul
      by_cases hne : resources.filter (fun r => r.group = none) ≠ []
      · rw [if_pos hne] at hul
        have hleq := Option.some.inj hul
        rw [← hleq] at hrl
        have hrf : r ∈ resources.filter (fun r => r.group = none) :=
          (sortGroupRes_perm _ _ _ _ _).mem_iff.mp hrl
        have hgg : r.group = none := of_decide_eq_true (List.mem_filter.mp hrf).2
        rw [hg] at hgg
        cases hgg
      · rw [if_neg hne] at hul
        cases hul
  · intro pos bounds hcl
    obtain ⟨og, resolve, ung, hli, hpos⟩ :=
      _calculate_layoutF_inv fuel resources groups connections pos bounds hcl
    have hfilter_mem : ∀ (go : Option String) (x : AzureResource),
        x ∈ resources.filter (fun r => r.group = go) → x ∈ resources ∧ x.group = go :=
      fun go x hx => ⟨(List.mem_filter.mp hx).1,
        of_decide_eq_true (List.mem_filter.mp hx).2⟩
    have hmain : (∀ gid2 x, x ∈ resolve gid2 → x ∈ resources ∧ x.group = some gid2) ∧
        (∀ x ∈ ung, x ∈ resources ∧ x.group = none) ∧ (∀ g ∈ og, g ∈ groups) := by
      unfold layoutInputs at hli
      by_cases hconn : connections ≠ []
      · rw [if_pos hconn] at hli
        rcases Option.map_eq_some'.mp hli with ⟨topo, htopo, htrip⟩
        obtain ⟨layers, og2, ha, ho, htopoeq⟩ :=
          calculate_topology_layoutF_inv fuel resources groups connections topo htopo
        have hog : og = topo.ordered_groups := (congrArg (fun t => t.1) htrip).symm
        have hresolve : resolve = fun gid2 => dGetD topo.group_resources gid2
            (resources.filter (fun r => r.group = some gid2)) := by
          have := congrArg (fun t => t.2.1) htrip
          exact this.symm
        have hung : ung = (match topo.ungrouped_resources with
            | some l => l
            | none => resources.filter (fun r => r.group = none)) := by
          have := congrArg (fun t => t.2.2) htrip
          exact this.symm
        refine ⟨?_, ?_, ?_⟩
        · intro gid2 x hx
          rw [hresolve] at hx
          simp only [dGetD] at hx
          cases hget : dGet? topo.group_resources gid2 with
          | none =>
              rw [hget] at hx
              exact hfilter_mem (some gid2) x hx
          | some l =>
              rw [hget] at hx
              simp only [Option.getD] at hx
              rw [htopoeq] at hget
              simp only at hget
              rcases topo_fold_group_resources resources
                  (detect_hubs resources connections HUB_CONNECTIVITY_THRESHOLD) layers
                  (build_adjacency_graph connections).outgoing
                  (build_adjacency_graph connections).incoming og2 [] gid2 l hget with
                h0 | h0
              · simp [dGet?] at h0
              · obtain ⟨g2, hg2, hgid2, hl⟩ := h0
                rw [hl] at hx
                exact hfilter_mem (some gid2) x
                  ((sortGroupRes_perm _ _ _ _ _).mem_iff.mp hx)
        · intro x hx
          rw [hung] at hx
          rw [htopoeq] at hx
          simp only at hx
          by_cases hne : resources.filter (fun r => r.group = none) ≠ []
          · rw [if_pos hne] at hx
            simp only at hx
            exact hfilter_mem none x ((sortGroupRes_perm _ _ _ _ _).mem_iff.mp hx)
          · rw [if_neg hne] at hx
            simp only at hx
            exact hfilter_mem none x hx
        · intro g hgm
          rw [hog, htopoeq] at hgm
          simp only at hgm
          exact (optimize_group_orderF_perm fuel groups resources connections og2
            ho).mem_iff.mp hgm
      · rw [if_neg hconn] at hli
        have hog : og = groups := (congrArg (fun t => t.1) (Option.some.inj hli)).symm
        have hresolve : resolve = fun gid2 =>
            resources.filter (fun r => r.group = some gid2) :=
          (congrArg (fun t => t.2.1) (Option.some.inj hli)).symm
        have hung : ung = resources.filter (fun r => r.group = none) :=
          (congrArg (fun t => t.2.2) (Option.some.inj hli)).symm
        refine ⟨?_, ?_, ?_⟩
        · intro gid2 x hx
          rw [hresolve] at hx
          exact hfilter_mem (some gid2) x hx
        · intro x hx
          rw [hung] at hx
          exact hfilter_mem none x hx
        · intro g hgm
          rw [hog] at hgm
          exact hgm
    obtain ⟨hresolveP, hungP, hogP⟩ := hmain
    cases hmem : dMem pos r.id with
    | false => rfl
    | true =>
        exfalso
        rw [hpos] at hmem
        rcases groupsFold_keys resolve og _ r.id hmem with h1 | h1
        · rcases placeUngrouped_keys ung _ r.id h1 with h2 | h2
          · simp [dMem, dGet?] at h2
          · obtain ⟨x, hx, hxid⟩ := h2
            have hxr := huniq x (hungP x hx).1 hxid
            rw [hxr] at hx
            have := (hungP r hx).2
            rw [hg] at this
            cases this
        · obtain ⟨g2, hg2, x, hx, hxid⟩ := h1
          have hxprops := hresolveP g2.id x hx
          have hxr := huniq x hxprops.1 hxid
          rw [hxr] at hxprops
          have hgg : some gid = some g2.id := by rw [← hg]; exact hxprops.2
          exact hghost g2 (hogP g2 hg2) (Option.some.inj hgg).symm

/-- The ghost-grouped resource of the C5/C10 concrete instances: explicit
position (500, 500), group id `ghost` that no groups list defines. -/
def ghostResource : AzureResource :=
  { id := "r", x := some 500, y := some 500, group := some "ghost" }

/-- Singleton resource list holding the ghost-grouped resource. -/
def ghostResources : List AzureResource := [ghostResource]

/-- A connection between ids outside the resource set, to exercise the
topology path. -/
def ghostConnections : List Connection := [{ source := "a", target := "b" }]

/-- C5 (counterexample): the resource `r` carries an explicit `(500, 500)`
but names the undefined group `ghost`; the grid placement returns an empty
position map, so `r` is not bound to `(500, 500)` (or to anything). -/
theorem C5_counterexample :
    _calculate_layoutF 0 ghostResources [] [] = some ([], []) ∧
      dGet? ([] : Dict (Int × Int)) "r" ≠ some ((500 : Int), (500 : Int)) := by
  constructor
  · rfl
  · intro h
    cases h

theorem exists_mem_enumFrom {α : Type} (l : List α) (x : α) (hx : x ∈ l) :
    ∀ n : Nat, ∃ i, (i, x) ∈ List.enumFrom n l := by
  induction l with
  | nil => simp at hx
  | cons y rest ih =>
      intro n
      rcases List.mem_cons.mp hx with h | h
      · subst h
        exact ⟨n, by rw [List.enumFrom_cons]; exact List.mem_cons_self _ _⟩
      · obtain ⟨i, hi⟩ := ih h (n + 1)
        exact ⟨i, by rw [List.enumFrom_cons]; exact List.mem_cons_of_mem _ hi⟩

theorem ungStep_get_ne (st : LayoutState) (x : AzureResource) (k : String)
    (hk : x.id ≠ k) : dGet? (ungStep st x).positions k = dGet? st.positions k := by
  unfold ungStep
  cases hx : x.x with
  | some px =>
      cases hy : x.y with
      | some py => exact dGet?_dSet_ne _ _ _ _ (fun hh => hk hh.symm)
      | none =>
          by_cases hc : st.current_x + ICON_CELL_WIDTH > CANVAS_WIDTH + PAGE_MARGIN <;>
            simp [hc, dGet?_dSet_ne _ _ _ _ (fun hh => hk hh.symm)]
  | none =>
      by_cases hc : st.current_x + ICON_CELL_WIDTH > CANVAS_WIDTH + PAGE_MARGIN <;>
        simp [hc, dGet?_dSet_ne _ _ _ _ (fun hh => hk hh.symm)]

theorem ungStep_get_explicit (st : LayoutState) (x : AzureResource) (px py : Int)
    (hx : x.x = some px) (hy : x.y = some py) :
    dGet? (ungStep st x).positions x.id = some (px, py) := by
  unfold ungStep
  rw [hx, hy]
  exact dGet?_dSet_self _ _ _

theorem grpStep_get_ne (cols : Nat) (st : LayoutState) (p : Nat × AzureResource)
    (k : String) (hk : p.2.id ≠ k) :
    dGet? (grpStep cols st p).positions k = dGet? st.positions k := by
  unfold grpStep
  cases hx : p.2.x with
  | some px =>
      cases hy : p.2.y with
      | some py => exact dGet?_dSet_ne _ _ _ _ (fun hh => hk hh.symm)
      | none => simp [dGet?_dSet_ne _ _ _ _ (fun hh => hk hh.symm)]
  | none => simp [dGet?_dSet_ne _ _ _ _ (fun hh => hk hh.symm)]

theorem grpStep_get_explicit (cols : Nat) (st : LayoutState) (p : Nat × AzureResource)
    (px py : Int) (hx : p.2.x = some px) (hy : p.2.y = some py) :
    dGet? (grpStep cols st p).positions p.2.id = some (px, py) := by
  unfold grpStep
  rw [hx, hy]
  exact dGet?_dSet_self _ _ _

theorem ungFold_C5 (r : AzureResource) (px py : Int)
    (hx : r.x = some px) (hy : r.y = some py) :
    ∀ (l : List AzureResource) (st : LayoutState),
      (∀ x ∈ l, x.id = r.id → x = r) →
      ((dGet? st.positions r.id = none ∨ dGet? st.positions r.id = some (px, py)) →
        (dGet? (l.foldl ungStep st).positions r.id = none ∨
          dGet? (l.foldl ungStep st).positions r.id = some (px, py))) ∧
      (r ∈ l → dGet? (l.foldl ungStep st).positions r.id = some (px, py)) ∧
      (dGet? st.positions r.id = some (px, py) →
        dGet? (l.foldl ungStep st).positions r.id = some (px, py)) := by
  intro l
  induction l with
  | nil =>
      intro st hl
      exact ⟨fun h => h, fun h => by simp at h, fun h => h⟩
  | cons x rest ih =>
      intro st hl
      have hl2 : ∀ y ∈ rest, y.id = r.id → y = r :=
        fun y hy => hl y (List.mem_cons_of_mem x hy)
      by_cases hid : x.id = r.id
      · have hxr : x = r := hl x (List.mem_cons_self x rest) hid
        have hwrite : dGet? (ungStep st x).positions r.id = some (px, py) := by
          rw [hxr]
          exact ungStep_get_explicit st r px py hx hy
        rw [List.foldl_cons]
        refine ⟨fun _ => Or.inr ((ih (ungStep st x) hl2).2.2 hwrite), fun _ =>
          (ih (ungStep st x) hl2).2.2 hwrite, fun _ =>
          (ih (ungStep st x) hl2).2.2 hwrite⟩
      · have hkeep : dGet? (ungStep st x).positions r.id = dGet? st.positions r.id :=
          ungStep_get_ne st x r.id hid
        rw [List.foldl_cons]
        refine ⟨?_, ?_, ?_⟩
        · intro h
          exact (ih (ungStep st x) hl2).1 (by rw [hkeep]; exact h)
        · intro hmem
          rcases List.mem_cons.mp hmem with h | h
          · exact absurd (congrArg AzureResource.id h.symm) hid
          · exact (ih (ungStep st x) hl2).2.1 h
        · intro h
          exact (ih (ungStep st x) hl2).2.2 (by rw [hkeep]; exact h)

theorem grpFold_C5 (r : AzureResource) (px py : Int)
    (hx : r.x = some px) (hy : r.y = some py) (cols : Nat) :
    ∀ (l : List (Nat × AzureResource)) (st : LayoutState),
      (∀ p ∈ l, p.2.id = r.id → p.2 = r) →
      ((dGet? st.positions r.id = none ∨ dGet? st.positions r.id = some (px, py)) →
        (dGet? (l.foldl (grpStep cols) st).positions r.id = none ∨
          dGet? (l.foldl (grpStep cols) st).positions r.id = some (px, py))) ∧
      ((∃ i, (i, r) ∈ l) → dGet? (l.foldl (grpStep cols) st).positions r.id =
        some (px, py)) ∧
      (dGet? st.positions r.id = some (px, py) →
        dGet? (l.foldl (grpStep cols) st).positions r.id = some (px, py)) := by
  intro l
  induction l with
  | nil =>
      intro st hl
      exact ⟨fun h => h, fun h => by simp at h, fun h => h⟩
  | cons p rest ih =>
      intro st hl
      have hl2 : ∀ q ∈ rest, q.2.id = r.id → q.2 = r :=
        fun q hq => hl q (List.mem_cons_of_mem p hq)
      by_cases hid : p.2.id = r.id
      · have hpr : p.2 = r := hl p (List.mem_cons_self p rest) hid
        have hwrite : dGet? (grpStep cols st p).positions r.id = some (px, py) := by
          rw [← hpr] at hx hy ⊢
          exact grpStep_get_explicit cols st p px py hx hy
        rw [List.foldl_cons]
        refine ⟨fun _ => Or.inr ((ih (grpStep cols st p) hl2).2.2 hwrite), fun _ =>
          (ih (grpStep cols st p) hl2).2.2 hwrite, fun _ =>
          (ih (grpStep cols st p) hl2).2.2 hwrite⟩
      · have hkeep : dGet? (grpStep cols st p).positions r.id = dGet? st.positions r.id :=
          grpStep_get_ne cols st p r.id hid
        rw [List.foldl_cons]
        refine ⟨?_, ?_, ?_⟩
        · intro h
          exact (ih (grpStep cols st p) hl2).1 (by rw [hkeep]; exact h)
        · intro hmem
          obtain ⟨i, hi⟩ := hmem
          rcases List.mem_cons.mp hi with h | h
          · rw [← h] at hid
            exact absurd rfl hid
          · exact (ih (grpStep cols st p) hl2).2.1 ⟨i, h⟩
        · intro h
          exact (ih (grpStep cols st p) hl2).2.2 (by rw [hkeep]; exact h)

theorem placeUngrouped_C5 (r : AzureResource) (px py : Int)
    (hx : r.x = some px) (hy : r.y = some py)
    (l : List AzureResource) (st : LayoutState)
    (hl : ∀ x ∈ l, x.id = r.id → x = r) :
    ((dGet? st.positions r.id = none ∨ dGet? st.positions r.id = some (px, py)) →
      (dGet? (placeUngrouped l st).positions r.id = none ∨
        dGet? (placeUngrouped l st).positions r.id = some (px, py))) ∧
    (r ∈ l → dGet? (placeUngrouped l st).positions r.id = some (px, py)) ∧
    (dGet? st.positions r.id = some (px, py) →
      dGet? (placeUngrouped l st).positions r.id = some (px, py)) := by
  unfold placeUngrouped
  by_cases h0 : l = []
  · rw [if_pos h0]
    exact ⟨fun h => h, fun h => absurd (h0 ▸ h) (List.not_mem_nil r), fun h => h⟩
  · rw [if_neg h0]
    exact ungFold_C5 r px py hx hy l st hl

theorem placeGroup_C5 (r : AzureResource) (px py : Int)
    (hx : r.x = some px) (hy : r.y = some py)
    (resolve : String → List AzureResource) (st : LayoutState) (g : ResourceGroup)
    (helem : ∀ x ∈ resolve g.id, x.id = r.id → x = r) :
    ((dGet? st.positions r.id = none ∨ dGet? st.positions r.id = some (px, py)) →
      (dGet? (placeGroup resolve st g).positions r.id = none ∨
        dGet? (placeGroup resolve st g).positions r.id = some (px, py))) ∧
    (r ∈ resolve g.id →
      dGet? (placeGroup resolve st g).positions r.id = some (px, py)) ∧
    (dGet? st.positions r.id = some (px, py) →
      dGet? (placeGroup resolve st g).positions r.id = some (px, py)) := by
  by_cases h0 : resolve g.id = []
  · have hsame : placeGroup resolve st g = st := by
      unfold placeGroup
      rw [if_pos h0]
    rw [hsame]
    exact ⟨fun h => h, fun h => absurd (h0 ▸ h) (List.not_mem_nil r), fun h => h⟩
  · have hposout : (placeGroup resolve st g).positions =
        ((resolve g.id).enum.foldl
          (grpStep (min 3 (resolve g.id).length))
          (if st.current_x + (GROUP_INTERNAL_PAD * 2 +
              ((min 3 (resolve g.id).length : Nat) : Int) * ICON_CELL_WIDTH) >
              CANVAS_WIDTH + PAGE_MARGIN then
            { st with current_x := START_X,
                      current_y := st.current_y + st.row_max_height + GROUP_GAP,
                      row_max_height := 0 }
          else st)).positions := by
      unfold placeGroup
      rw [if_neg h0]
    have hwpos : ((if st.current_x + (GROUP_INTERNAL_PAD * 2 +
        ((min 3 (resolve g.id).length : Nat) : Int) * ICON_CELL_WIDTH) >
        CANVAS_WIDTH + PAGE_MARGIN then
          { st with current_x := START_X,
                    current_y := st.current_y + st.row_max_height + GROUP_GAP,
                    row_max_height := 0 }
        else st) : LayoutState).positions = st.positions := by
      split <;> rfl
    have hpairs : ∀ p ∈ (resolve g.id).enum, p.2.id = r.id → p.2 = r := by
      intro p hp
      have henum : (resolve g.id).enum = List.enumFrom 0 (resolve g.id) := rfl
      rw [henum] at hp
      exact helem p.2 (mem_of_mem_enumFrom _ 0 p hp)
    have hfold := grpFold_C5 r px py hx hy (min 3 (resolve g.id).length)
      ((resolve g.id).enum)
      (if st.current_x + (GROUP_INTERNAL_PAD * 2 +
          ((min 3 (resolve g.id).length : Nat) : Int) * ICON_CELL_WIDTH) >
          CANVAS_WIDTH + PAGE_MARGIN then
        { st with current_x := START_X,
                  current_y := st.current_y + st.row_max_height + GROUP_GAP,
                  row_max_height := 0 }
      else st) hpairs
    rw [hwpos] at hfold
    rw [hposout]
    refine ⟨hfold.1, ?_, hfold.2.2⟩
    intro hmem
    apply hfold.2.1
    have henum : (resolve g.id).enum = List.enumFrom 0 (resolve g.id) := rfl
    rw [henum]
    exact exists_mem_enumFrom (resolve g.id) r hmem 0

theorem groupsFold_C5 (r : AzureResource) (px py : Int)
    (hx : r.x = some px) (hy : r.y = some py)
    (resolve : String → List AzureResource) :
    ∀ (gs : List ResourceGroup) (st : LayoutState),
      (∀ g ∈ gs, ∀ x ∈ resolve g.id, x.id = r.id → x = r) →
      ((dGet? st.positions r.id = none ∨ dGet? st.positions r.id = some (px, py)) →
        (dGet? (gs.foldl (placeGroup resolve) st).positions r.id = none ∨
          dGet? (gs.foldl (placeGroup resolve) st).positions r.id = some (px, py))) ∧
      ((∃ g ∈ gs, r ∈ resolve g.id) →
        (dGet? st.positions r.id = none ∨ dGet? st.positions r.id = some (px, py)) →
        dGet? (gs.foldl (placeGroup resolve) st).positions r.id = some (px, py)) ∧
      (dGet? st.positions r.id = some (px, py) →
        dGet? (gs.foldl (placeGroup resolve) st).positions r.id = some (px, py)) := by
  intro gs
  induction gs with
  | nil =>
      intro st hgs
      exact ⟨fun h => h, fun h => by simp at h, fun h => h⟩
  | cons g rest ih =>
      intro st hgs
      have hgs2 : ∀ g2 ∈ rest, ∀ x ∈ resolve g2.id, x.id = r.id → x = r :=
        fun g2 hg2 => hgs g2 (List.mem_cons_of_mem g hg2)
      have hg1 := placeGroup_C5 r px py hx hy resolve st g
        (hgs g (List.mem_cons_self g rest))
      rw [List.foldl_cons]
      refine ⟨?_, ?_, ?_⟩
      · intro h
        exact (ih (placeGroup resolve st g) hgs2).1 (hg1.1 h)
      · intro hmem hP
        rcases hmem with ⟨g2, hg2, hrmem⟩
        rcases List.mem_cons.mp hg2 with hcase | hcase
        · have hQ : dGet? (placeGroup resolve st g).positions r.id = some (px, py) := by
            rw [hcase] at hrmem
            exact hg1.2.1 hrmem
          exact (ih (placeGroup resolve st g) hgs2).2.2 hQ
        · exact (ih (placeGroup resolve st g) hgs2).2.1 ⟨g2, hcase, hrmem⟩ (hg1.1 hP)
      · intro h
        exact (ih (placeGroup resolve st g) hgs2).2.2 (hg1.2.2 h)

theorem layoutInputs_spec (fuel : Nat) (resources : List AzureResource)
    (groups : List ResourceGroup) (connections : List Connection)
    (og : List ResourceGroup) (resolve : String → List AzureResource)
    (ung : List AzureResource)
    (hli : layoutInputs fuel resources groups connections = some (og, resolve, ung)) :
    (∀ gid2 x, x ∈ resolve gid2 → x ∈ resources ∧ x.group = some gid2) ∧
    (∀ x ∈ ung, x ∈ resources ∧ x.group = none) ∧
    (∀ g ∈ og, g ∈ groups) ∧
    (∀ g ∈ groups, g ∈ og) ∧
    (∀ x ∈ resources, x.group = none → x ∈ ung) ∧
    (∀ gid2 x, x ∈ resources → x.group = some gid2 → x ∈ resolve gid2) := by
  have hfilter_mem : ∀ (go : Option String) (x : AzureResource),
      x ∈ resources.filter (fun r => r.group = go) → x ∈ resources ∧ x.group = go :=
    fun go x hx => ⟨(List.mem_filter.mp hx).1,
      of_decide_eq_true (List.mem_filter.mp hx).2⟩
  have hfilter_intro : ∀ (go : Option String) (x : AzureResource),
      x ∈ resources → x.group = go → x ∈ resources.filter (fun r => r.group = go) :=
    fun go x hx hgo => List.mem_filter.mpr ⟨hx, decide_eq_true hgo⟩
  unfold layoutInputs at hli
  by_cases hconn : connections ≠ []
  · rw [if_pos hconn] at hli
    rcases Option.map_eq_some'.mp hli with ⟨topo, htopo, htrip⟩
    obtain ⟨layers, og2, ha, ho, htopoeq⟩ :=
      calculate_topology_layoutF_inv fuel resources groups connections topo htopo
    have hog : og = topo.ordered_groups := (congrArg (fun t => t.1) htrip).symm
    have hresolve : resolve = fun gid2 => dGetD topo.group_resources gid2
        (resources.filter (fun r => r.group = some gid2)) :=
      (congrArg (fun t => t.2.1) htrip).symm
    have hung : ung = (match topo.ungrouped_resources with
        | some l => l
        | none => resources.filter (fun r => r.group = none)) :=
      (congrArg (fun t => t.2.2) htrip).symm
    have hogperm := optimize_group_orderF_perm fuel groups resources connections og2 ho
    have hstored : ∀ gid2 l, dGet? topo.group_resources gid2 = some l →
        l = sortGroupRes (detect_hubs resources connections HUB_CONNECTIVITY_THRESHOLD)
          layers (build_adjacency_graph connections).outgoing
          (build_adjacency_graph connections).incoming
          (resources.filter (fun r => r.group = some gid2)) := by
      intro gid2 l hget
      rw [htopoeq] at hget
      simp only at hget
      rcases topo_fold_group_resources resources
          (detect_hubs resources connections HUB_CONNECTIVITY_THRESHOLD) layers
          (build_adjacency_graph connections).outgoing
          (build_adjacency_graph connections).incoming og2 [] gid2 l hget with h0 | h0
      · simp [dGet?] at h0
      · obtain ⟨g2, _, _, hl⟩ := h0
        exact hl
    refine ⟨?_, ?_, ?_, ?_, ?_, ?_⟩
    · intro gid2 x hxm
      rw [hresolve] at hxm
      simp only [dGetD] at hxm
      cases hget : dGet? topo.group_resources gid2 with
      | none =>
          rw [hget] at hxm
          exact hfilter_mem (some gid2) x hxm
      | some l =>
          rw [hget] at hxm
          simp only [Option.getD] at hxm
          rw [hstored gid2 l hget] at hxm
          exact hfilter_mem (some gid2) x
            ((sortGroupRes_perm _ _ _ _ _).mem_iff.mp hxm)
    · intro x hxm
      rw [hung] at hxm
      rw [htopoeq] at hxm
      simp only at hxm
      by_cases hne : resources.filter (fun r => r.group = none) ≠ []
      · rw [if_pos hne] at hxm
        simp only at hxm
        exact hfilter_mem none x ((sortGroupRes_perm _ _ _ _ _).mem_iff.mp hxm)
      · rw [if_neg hne] at hxm
        simp only at hxm
        exact hfilter_mem none x hxm
    · intro g hgm
      rw [hog, htopoeq] at hgm
      simp only at hgm
      exact hogperm.mem_iff.mp hgm
    · intro g hgm
      rw [hog, htopoeq]
      simp only
      exact hogperm.mem_iff.mpr hgm
    · intro x hxm hxg
      rw [hung, htopoeq]
      simp only
      have hxf := hfilter_intro none x hxm hxg
      by_cases hne : resources.filter (fun r => r.group = none) ≠ []
      · rw [if_pos hne]
        simp only
        exact (sortGroupRes_perm _ _ _ _ _).mem_iff.mpr hxf
      · rw [if_neg hne]
        simp only
        exact hxf
    · intro gid2 x hxm hxg
      rw [hresolve]
      simp only [dGetD]
      have hxf := hfilter_intro (some gid2) x hxm hxg
      cases hget : dGet? topo.group_resources gid2 with
      | none =>
          simp only [Option.getD]
          exact hxf
      | some l =>
          simp only [Option.getD]
          rw [hstored gid2 l hget]
          exact (sortGroupRes_perm _ _ _ _ _).mem_iff.mpr hxf
  · rw [if_neg hconn] at hli
    have hog : og = groups := (congrArg (fun t => t.1) (Option.some.inj hli)).symm
    have hresolve : resolve = fun gid2 =>
        resources.filter (fun r => r.group = some gid2) :=
      (congrArg (fun t => t.2.1) (Option.some.inj hli)).symm
    have hung : ung = resources.filter (fun r => r.group = none) :=
      (congrArg (fun t => t.2.2) (Option.some.inj hli)).symm
    refine ⟨?_, ?_, ?_, ?_, ?_, ?_⟩
    · intro gid2 x hxm
      rw [hresolve] at hxm
      exact hfilter_mem (some gid2) x hxm
    · intro x hxm
      rw [hung] at hxm
      exact hfilter_mem none x hxm
    · intro g hgm
      rw [hog] at hgm
      exact hgm
    · intro g hgm
      rw [hog]
      exact hgm
    · intro x hxm hxg
      rw [hung]
      exact hfilter_intro none x hxm hxg
    · intro gid2 x hxm hxg
      rw [hresolve]
      exact hfilter_intro (some gid2) x hxm hxg

/-- C5 (amended): a resource carrying an explicit `(x, y)` whose group field
is absent or names a defined group is bound to exactly that pair in the
position map whenever the layout computation returns; (per C10's theorem, a
resource naming an undefined group instead receives no entry at all). -/
theorem C5_explicit_xy_honored (fuel : Nat) (resources : List AzureResource)
    (groups : List ResourceGroup) (connections : List Connection)
    (r : AzureResource) (px py : Int)
    (hr : r ∈ resources) (hx : r.x = some px) (hy : r.y = some py)
    (hgrp : r.group = none ∨ ∃ g ∈ groups, r.group = some g.id)
    (huniq : ∀ r2 ∈ resources, r2.id = r.id → r2 = r) :
    ∀ pos bounds,
      _calculate_layoutF fuel resources groups connections = some (pos, bounds) →
      dGet? pos r.id = some (px, py) := by
  intro pos bounds hcl
  obtain ⟨og, resolve, ung, hli, hpos⟩ :=
    _calculate_layoutF_inv fuel resources groups connections pos bounds hcl
  obtain ⟨hres1, hung1, hog1, hog2, hung2, hres2⟩ :=
    layoutInputs_spec fuel resources groups connections og resolve ung hli
  have hulist : ∀ x ∈ ung, x.id = r.id → x = r :=
    fun x hxm hxi => huniq x (hung1 x hxm).1 hxi
  have hglist : ∀ g ∈ og, ∀ x ∈ resolve g.id, x.id = r.id → x = r :=
    fun g _ x hxm hxi => huniq x (hres1 g.id x hxm).1 hxi
  have hU := placeUngrouped_C5 r px py hx hy ung
    (⟨[], [], START_X, START_Y, 0⟩ : LayoutState) hulist
  have hG := groupsFold_C5 r px py hx hy resolve og
    (placeUngrouped ung ⟨[], [], START_X, START_Y, 0⟩) hglist
  have hinit : dGet? (⟨[], [], START_X, START_Y, 0⟩ : LayoutState).positions r.id =
      none := rfl
  rw [hpos]
  rcases hgrp with hnone | ⟨g, hgmem, hgsome⟩
  · have hrung : r ∈ ung := hung2 r hr hnone
    have hQ1 := hU.2.1 hrung
    exact hG.2.2 hQ1
  · have hrres : r ∈ resolve g.id := hres2 g.id r hr hgsome
    have hP1 := hU.1 (Or.inl hinit)
    exact hG.2.1 ⟨g, hog2 g hgmem, hrres⟩ hP1

/-- An ungrouped resource with an explicit position, for the C5 witness. -/
def okResource : AzureResource := { id := "ok", x := some 500, y := some 500 }

/-- C5 witness: an ungrouped resource with explicit `(500, 500)` is bound
verbatim on a concrete instance. -/
theorem C5_explicit_xy_honored_witness :
    _calculate_layoutF 0 [okResource] [] [] =
        some ([("ok", ((500 : Int), (500 : Int)))], []) ∧
      dGet? [("ok", ((500 : Int), (500 : Int)))] okResource.id =
        some ((500 : Int), (500 : Int)) :=
  ⟨rfl,
    C5_explicit_xy_honored 0 [okResource] [] [] okResource 500 500 (by decide) rfl rfl
      (Or.inl rfl) (by decide) [("ok", ((500 : Int), (500 : Int)))] [] rfl⟩

/-- C10 witness: on a concrete instance the layout returns an empty position
map, and the theorem confirms the ghost-grouped resource has no entry. -/
theorem C10_ghost_group_excluded_witness :
    _calculate_layoutF 2 ghostResources [] ghostConnections = some ([], []) ∧
      dMem ([] : Dict (Int × Int)) ghostResource.id = false :=
  ⟨rfl,
    (C10_ghost_group_excluded 2 ghostResources [] ghostConnections ghostResource
      "ghost" (by decide) rfl (by decide) (by decide)).2 [] [] rfl⟩

end AzureDrawio
